import Mathlib

/-!
# A verification development for the `reminis` incremental-computation cache

This file gives a shallow embedding of `reminis.py` and proves properties of
the engine: graph construction (`make_pipeline_tree`), fingerprinting
(`functions_hash`, `make_meta`, `meta_eq`), recursive validity checking
(`node_valid`), and the demand-driven evaluator (`get_data`,
`gen_and_cache`).

Modelling conventions:
* Python values that flow through the pipeline are modelled by the inductive
  type `Val`; the Python singleton `None` is the constructor `Val.vnone`.
* A Python function object is a `Func`: its `__name__`, its source text (what
  `inspect.getsource` returns), and its behaviour `impl` on a list of
  positional arguments.
* `md5` digests are compared only for equality in the source, so the hash of
  a function list is modelled as the concatenated source text itself (a
  collision-free abstraction of the digest).
* The mutable object graph is modelled as an arena: the list `nodes` built by
  `make_pipeline_tree`, with dependencies stored as indices of earlier
  entries.  The mutable fields `data` and `valid` of `ProcessorNode`, the
  pickle files under `reminis_cache/`, and ghost logs live in a state `St`
  threaded through the functions.  Ghost fields (`calls`: indices of nodes
  whose processor was invoked; `loads`: indices for which a value-file read
  was attempted; `mloads`: names for which a metadata-file read was
  attempted) record events and never influence control flow.
* The recursions of `node_valid` and `get_data` descend into dependencies;
  in the embedding they take a fuel argument.  On well-formed arenas (every
  dependency index smaller than the node's index) any fuel strictly larger
  than the node index makes the fuel bound unreachable.
-/

namespace Reminis

/-- A runtime value; `vnone` is Python's `None`.  The claims only ever flow
`None`, numbers and strings through the pipeline, so this universe is
representative of the picklable Python objects involved. -/
inductive Val where
  | vnone : Val
  | vint : Int → Val
  | vstr : String → Val
deriving DecidableEq, Repr

/-- A Python function object: its `__name__`, its source text as returned by
`inspect.getsource`, and its behaviour on positional arguments. -/
structure Func where
  name : String
  source : String
  impl : List Val → Val

instance : Inhabited Func := ⟨⟨"", "", fun _ => Val.vnone⟩⟩

/-- The dictionary produced by `make_meta` and pickled into `.meta.cache`
files. -/
structure Meta where
  src_hash : String
  dep_hashes : List String
  pos_args : List Val
deriving DecidableEq, Repr

/-- The internal processor node (dataclass `ProcessorNode`), with
dependencies as arena indices of earlier nodes.  The mutable fields `data`
and `valid` are kept in the run state `St` instead. -/
structure ProcessorNode where
  processor : Func
  args : List Val
  name : String
  impure : Bool
  no_caching : Bool
  dependencies : List Nat
  calls : List Func

instance : Inhabited ProcessorNode :=
  ⟨⟨default, [], "", false, false, [], []⟩⟩

/-- Arena access; out-of-range indices yield a default node (never reached on
well-formed arenas). -/
def getNode (ns : List ProcessorNode) (i : Nat) : ProcessorNode :=
  ns.getD i default

/-- The mutable state of one run: the cache store (`metas`, `vals`, keyed by
node name), the per-node `data` and `valid` slots, and ghost event logs. -/
structure St where
  metas : List (String × Meta)
  vals : List (String × Val)
  data : List Val
  valid : List (Option Bool)
  calls : List Nat
  loads : List Nat
  mloads : List String
deriving DecidableEq

/-- First-match association-list lookup (models opening the file for a key;
`setS` prepends, so the most recent write wins). -/
def lookupS {α : Type} : List (String × α) → String → Option α
  | [], _ => none
  | kv :: rest, key => if kv.1 = key then some kv.2 else lookupS rest key

/-- Write a record for a key (overwrites any previous record). -/
def setS {α : Type} (l : List (String × α)) (key : String) (v : α) :
    List (String × α) :=
  (key, v) :: l

/-- The `valid` slot of node `i` (`None` when not yet checked). -/
def getValid (st : St) (i : Nat) : Option Bool := st.valid.getD i none

/-- The `data` slot of node `i` (`Val.vnone` models the initial `None`). -/
def getData (st : St) (i : Nat) : Val := st.data.getD i Val.vnone

/-- Set the `valid` slot of node `i`. -/
def setValid (st : St) (i : Nat) (b : Bool) : St :=
  { st with valid := st.valid.set i (some b) }

/-- Set the `data` slot of node `i`. -/
def setData (st : St) (i : Nat) (v : Val) : St :=
  { st with data := st.data.set i v }

/-- Fresh run state over an empty store, for an arena of `n` nodes. -/
def initSt (n : Nat) : St :=
  ⟨[], [], List.replicate n Val.vnone, List.replicate n none, [], [], []⟩

/-- Start a new run keeping the durable store: `data` and `valid` slots are
reset and the ghost logs cleared. -/
def resetSt (n : Nat) (st : St) : St :=
  { st with data := List.replicate n Val.vnone,
            valid := List.replicate n none,
            calls := [], loads := [], mloads := [] }

/-- Fresh run state over an arbitrary durable store. -/
def mkRunSt (n : Nat) (metas : List (String × Meta))
    (vals : List (String × Val)) : St :=
  ⟨metas, vals, List.replicate n Val.vnone, List.replicate n none, [], [], []⟩

/-- `functions_hash`: the md5 over the concatenated source text of the
functions, modelled as the concatenated source text itself. -/
def functions_hash (functions : List Func) : String :=
  String.join (functions.map Func.source)

/-- `make_meta(node)`: own source hash over the processor and its `calls`,
one hash per dependency computed from the dependency's processor alone, and
the positional arguments. -/
def make_meta (ns : List ProcessorNode) (node : ProcessorNode) : Meta :=
  { src_hash := functions_hash (node.processor :: node.calls)
    dep_hashes :=
      node.dependencies.map (fun j => functions_hash [(getNode ns j).processor])
    pos_args := node.args }

/-- `meta_eq`: field-by-field comparison in the source's order. -/
def meta_eq (meta1 meta2 : Meta) : Bool :=
  if meta1.pos_args ≠ meta2.pos_args then false
  else if meta1.src_hash ≠ meta2.src_hash then false
  else if meta1.dep_hashes ≠ meta2.dep_hashes then false
  else true

/-- `run_processor`: call the processor on dependency outputs followed by the
node's own positional arguments. -/
def run_processor (processor : Func) (args : List Val) (inputs : List Val) :
    Val :=
  processor.impl (inputs ++ args)

/-- The dependency loop of `node_valid`: `valid = valid and node_valid(dep)`,
which short-circuits after the first invalid dependency. -/
def depsValidAux (f : Nat → St → Bool × St) : List Nat → St → Bool × St
  | [], st => (true, st)
  | j :: rest, st =>
    let r := f j st
    if r.1 then depsValidAux f rest r.2 else (false, r.2)

/-- `node_valid(node)`, fuelled.  Order of the source: impure check, memo
check, dependency loop, metadata load (ghost-logged in `mloads`), metadata
comparison; every computed outcome is memoized in the `valid` slot. -/
def node_validF : Nat → List ProcessorNode → Nat → St → Bool × St
  | 0, _, _, st => (false, st)
  | fuel + 1, ns, i, st =>
    let node := getNode ns i
    if node.impure then (false, st)
    else
      match getValid st i with
      | some b => (b, st)
      | none =>
        let r := depsValidAux (node_validF fuel ns) node.dependencies st
        if r.1 = false then (false, setValid r.2 i false)
        else
          let st1 := { r.2 with mloads := r.2.mloads ++ [node.name] }
          match lookupS st1.metas node.name with
          | none => (false, setValid st1 i false)
          | some meta_data =>
            if meta_eq (make_meta ns node) meta_data then
              (true, setValid st1 i true)
            else (false, setValid st1 i false)

/-- The input-gathering loop of `gen_and_cache`:
`inputs = [get_data(dep) for dep in node.dependencies]`. -/
def getInputsAux (g : Nat → St → Val × St) : List Nat → St → List Val × St
  | [], st => ([], st)
  | j :: rest, st =>
    let r := g j st
    let q := getInputsAux g rest r.2
    (r.1 :: q.1, q.2)

/-- `gen_and_cache(node)` with the recursive `get_data` passed in as `g`:
evaluate the dependencies, run the processor (ghost-logged in `calls`),
always write the metadata record, and write the value record unless
`no_caching`. -/
def gen_and_cacheAux (g : Nat → St → Val × St) (ns : List ProcessorNode)
    (i : Nat) (st : St) : Val × St :=
  let node := getNode ns i
  let p := getInputsAux g node.dependencies st
  let data := run_processor node.processor node.args p.1
  let st1 := { p.2 with calls := p.2.calls ++ [i] }
  let st2 := { st1 with metas := setS st1.metas node.name (make_meta ns node) }
  if node.no_caching then (data, st2)
  else (data, { st2 with vals := setS st2.vals node.name data })

/-- `get_data(node)`, fuelled.  Order of the source: validity check, in-memory
slot check, disk load when valid and not `no_caching` (ghost-logged in
`loads`; a loaded `None` does not count as data), otherwise `gen_and_cache`
followed by populating the slot. -/
def get_dataF : Nat → List ProcessorNode → Nat → St → Val × St
  | 0, _, _, st => (Val.vnone, st)
  | fuel + 1, ns, i, st =>
    let node := getNode ns i
    let r := node_validF (fuel + 1) ns i st
    let st1 := r.2
    if getData st1 i ≠ Val.vnone then (getData st1 i, st1)
    else
      let q :=
        if r.1 && !node.no_caching then
          let st2 := { st1 with loads := st1.loads ++ [i] }
          match lookupS st2.vals node.name with
          | some v => (v, st2)
          | none => (Val.vnone, st2)
        else (Val.vnone, st1)
      if q.1 ≠ Val.vnone then (q.1, q.2)
      else
        let w := gen_and_cacheAux (get_dataF fuel ns) ns i q.2
        (w.1, setData w.2 i w.1)

/-- `gen_and_cache` with the fuelled `get_data` plugged in. -/
def gen_and_cacheF (fuel : Nat) (ns : List ProcessorNode) (i : Nat)
    (st : St) : Val × St :=
  gen_and_cacheAux (get_dataF fuel ns) ns i st

/-- The denotational value of a node: its processor applied to the
denotations of its dependencies followed by its arguments, fuelled. -/
def denotF : Nat → List ProcessorNode → Nat → Val
  | 0, _, _ => Val.vnone
  | fuel + 1, ns, i =>
    let node := getNode ns i
    run_processor node.processor node.args
      (node.dependencies.map (denotF fuel ns))

/-- The denotational value of node `i` with just enough fuel. -/
def dval (ns : List ProcessorNode) (i : Nat) : Val := denotF (i + 1) ns i

/-! ## Graph construction (`make_pipeline_tree`) -/

/-- A dependency reference in a `Proc` descriptor: a name string, an integer
(`-1` is the previous-node marker), or any other shape of value. -/
inductive DepRef where
  | byName : String → DepRef
  | byInt : Int → DepRef
  | badShape : DepRef
deriving DecidableEq, Repr

/-- The caller-supplied descriptor (dataclass `Proc`); `dependencies = none`
models the field left at its default `None`. -/
structure Proc where
  processor : Func
  args : List Val := []
  name : Option String := none
  dependencies : Option (List DepRef) := none
  calls : List Func := []
  impure : Bool := false
  no_caching : Bool := false

/-- `get_node_name`: the explicit name if given, else the processor's
`__name__`. -/
def get_node_name (proc : Proc) : String :=
  match proc.name with
  | some n => n
  | none => proc.processor.name

/-- Index of the first already-built node whose name matches (the `for node
in nodes` search in `make_pipeline_tree`). -/
def findNameIdx (ns : List ProcessorNode) (s : String) : Option Nat :=
  match ns with
  | [] => none
  | node :: rest =>
    if node.name = s then some 0
    else (findNameIdx rest s).map (· + 1)

/-- The only unhandled failure of `make_pipeline_tree`: `nodes[-1]` applied
to an empty node list. -/
inductive PipeError where
  | indexError : PipeError
deriving DecidableEq, Repr

/-- Resolve one dependency reference against the nodes built so far.
`ok none` is the skip-and-warn outcome (a message is printed and the
reference dropped); `error` is the `IndexError` from `nodes[-1]` on an empty
list. -/
def resolveRef (ns : List ProcessorNode) (ref : DepRef) :
    Except PipeError (Option Nat) :=
  match ref with
  | .byName s => .ok (findNameIdx ns s)
  | .byInt n =>
    if n = -1 then
      match ns.length with
      | 0 => .error .indexError
      | m + 1 => .ok (some m)
    else .ok none
  | .badShape => .ok none

/-- Resolve a descriptor's reference list in order, dropping the references
that resolved to nothing. -/
def buildDeps (ns : List ProcessorNode) :
    List DepRef → Except PipeError (List Nat)
  | [] => .ok []
  | ref :: rest => do
    let o ← resolveRef ns ref
    let ds ← buildDeps ns rest
    match o with
    | none => pure ds
    | some j => pure (j :: ds)

/-- One iteration of the construction loop: resolve the descriptor's
dependencies (an omitted list means the previous node, if any) and append
the new `ProcessorNode`. -/
def buildStep (ns : List ProcessorNode) (proc : Proc) :
    Except PipeError (List ProcessorNode) := do
  let deps ←
    match proc.dependencies with
    | some refs => buildDeps ns refs
    | none =>
      pure (match ns.length with
        | 0 => ([] : List Nat)
        | m + 1 => [m])
  pure (ns ++ [{ processor := proc.processor, args := proc.args,
                 name := get_node_name proc, impure := proc.impure,
                 no_caching := proc.no_caching, dependencies := deps,
                 calls := proc.calls }])

/-- The construction loop over the whole pipeline. -/
def buildNodes (ns : List ProcessorNode) :
    List Proc → Except PipeError (List ProcessorNode)
  | [] => .ok ns
  | proc :: rest => do
    let ns1 ← buildStep ns proc
    buildNodes ns1 rest

/-- `make_pipeline_tree(pipeline)`: build all nodes, return the arena and the
index of the sink (`nodes[-1]`, an `IndexError` when the pipeline is
empty). -/
def make_pipeline_tree (pipeline : List Proc) :
    Except PipeError (List ProcessorNode × Nat) := do
  let ns ← buildNodes [] pipeline
  match ns.length with
  | 0 => .error .indexError
  | m + 1 => pure (ns, m)

/-! ## Spec-modelled fingerprint

The spec's `own_fingerprint(node)` covers the node's function *and every
auxiliary function declared for it*; it is used below to compare the spec's
metadata shape against `make_meta`. -/

/-- Modelled from the spec: `own_fingerprint(node)`, a content hash over the
node's function and every auxiliary function declared for it, in fixed
order. -/
def own_fingerprint (node : ProcessorNode) : String :=
  functions_hash (node.processor :: node.calls)

/-! ## Well-formedness predicates and run invariants -/

/-- Every dependency index points strictly backwards (true of every arena
`make_pipeline_tree` produces). -/
@[reducible] def WFdeps (ns : List ProcessorNode) : Prop :=
  ∀ i, i < ns.length → ∀ j, j ∈ (getNode ns i).dependencies → j < i

/-- Node names are pairwise distinct. -/
@[reducible] def distinctNames (ns : List ProcessorNode) : Prop :=
  ∀ i, i < ns.length → ∀ j, j < ns.length →
    (getNode ns i).name = (getNode ns j).name → i = j

/-- Every node is cacheable: neither `impure` nor `no_caching`. -/
@[reducible] def allCacheable (ns : List ProcessorNode) : Prop :=
  ∀ i, i < ns.length →
    (getNode ns i).impure = false ∧ (getNode ns i).no_caching = false

/-- No node's denotational value is `None`. -/
@[reducible] def nonNoneVals (ns : List ProcessorNode) : Prop :=
  ∀ i, i < ns.length → dval ns i ≠ Val.vnone

/-- `node_valid` touches only the `valid` slots and the `mloads` ghost log. -/
def sameStore (st st' : St) : Prop :=
  st'.metas = st.metas ∧ st'.vals = st.vals ∧ st'.data = st.data ∧
  st'.calls = st.calls ∧ st'.loads = st.loads

/-- Invariant of a first run over an empty store: slot lengths match the
arena; every checked node is invalid; a metadata record exists only for
nodes already recomputed this run (and then equals the fresh record, with
the node memoized invalid); value records and data slots hold the
denotational value; a filled data slot certifies that the node's whole
support was recomputed and persisted. -/
def Inv1 (ns : List ProcessorNode) (st : St) : Prop :=
  st.data.length = ns.length ∧ st.valid.length = ns.length ∧
  (∀ i, i < ns.length → getValid st i = none ∨ getValid st i = some false) ∧
  (∀ i, i < ns.length →
    lookupS st.metas (getNode ns i).name = none ∨
    (lookupS st.metas (getNode ns i).name = some (make_meta ns (getNode ns i)) ∧
     getValid st i = some false)) ∧
  (∀ i, i < ns.length →
    lookupS st.vals (getNode ns i).name = none ∨
    lookupS st.vals (getNode ns i).name = some (dval ns i)) ∧
  (∀ i, i < ns.length →
    getData st i = Val.vnone ∨
    (getData st i = dval ns i ∧
     lookupS st.metas (getNode ns i).name = some (make_meta ns (getNode ns i)) ∧
     lookupS st.vals (getNode ns i).name = some (dval ns i) ∧
     ∀ j, j ∈ (getNode ns i).dependencies → getData st j ≠ Val.vnone))

/-- The nodes `P` are ready to be served from the store `M`, `V`: metadata
matches the fresh record, the persisted value is the denotational value, and
readiness is closed under dependencies. -/
def ReadySet (ns : List ProcessorNode) (P : Nat → Prop)
    (M : List (String × Meta)) (V : List (String × Val)) : Prop :=
  ∀ i, P i → i < ns.length ∧
    lookupS M (getNode ns i).name = some (make_meta ns (getNode ns i)) ∧
    lookupS V (getNode ns i).name = some (dval ns i) ∧
    (∀ j, j ∈ (getNode ns i).dependencies → P j)

/-- Invariant of a re-run served from the store: the store never changes,
data slots stay empty, validity memos are only ever set to `true` on ready
nodes, and no processor is invoked. -/
def Inv2 (ns : List ProcessorNode) (P : Nat → Prop)
    (M : List (String × Meta)) (V : List (String × Val)) (st : St) : Prop :=
  st.metas = M ∧ st.vals = V ∧
  st.data.length = ns.length ∧ st.valid.length = ns.length ∧
  (∀ i, i < ns.length → getData st i = Val.vnone) ∧
  (∀ i, i < ns.length →
    getValid st i = none ∨ (getValid st i = some true ∧ P i)) ∧
  st.calls = []

/-- Invariant for the at-most-once property: no node has been invoked twice,
and an invoked node's data slot is filled. -/
def Inv8 (ns : List ProcessorNode) (st : St) : Prop :=
  st.data.length = ns.length ∧
  ∀ j, List.count j st.calls ≤ 1 ∧
    (j ∈ st.calls → getData st j ≠ Val.vnone)

/-! ## Concrete example functions, arenas and pipelines -/

/-- Read an integer out of a value (used by the example processors). -/
def asInt : Val → Int
  | Val.vint n => n
  | _ => 0

def impFn : Func := ⟨"imp", "def imp(): return 9", fun _ => Val.vint 9⟩

def noneFn : Func :=
  ⟨"none_fn", "def none_fn(): return None", fun _ => Val.vnone⟩

def sevenFn : Func := ⟨"seven", "def seven(): return 7", fun _ => Val.vint 7⟩

def doubleFn : Func :=
  ⟨"double", "def double(x): return 2 * x",
   fun vs => Val.vint (2 * asInt (vs.headD Val.vnone))⟩

def auxFn : Func := ⟨"helper", "def helper(): pass", fun _ => Val.vnone⟩

def oneFn : Func := ⟨"one", "def one(*a): return 1", fun _ => Val.vint 1⟩

def twoFn : Func := ⟨"two", "def two(*a): return 2", fun _ => Val.vint 2⟩

/-- A one-node arena holding an impure processor. -/
def nsImp : List ProcessorNode := [⟨impFn, [], "imp", true, false, [], []⟩]

/-- A two-node chain of pure cacheable processors. -/
def nsW1 : List ProcessorNode :=
  [⟨sevenFn, [], "seven", false, false, [], []⟩,
   ⟨doubleFn, [], "double", false, false, [0], []⟩]

/-- A one-node arena whose processor returns `None`. -/
def nsNone : List ProcessorNode :=
  [⟨noneFn, [], "none_fn", false, false, [], []⟩]

/-- A one-node cacheable arena used for the load-path example. -/
def nsC4 : List ProcessorNode :=
  [⟨sevenFn, [], "seven", false, false, [], []⟩]

/-- A state whose store holds matching metadata and a persisted value for
the node of `nsC4`, with an empty data slot. -/
def stC4 : St :=
  ⟨[("seven", make_meta nsC4 (getNode nsC4 0))], [("seven", Val.vint 7)],
   [Val.vnone], [none], [], [], []⟩

/-- Like `stC4`, with the validity memo already set to `true`. -/
def stC4v : St :=
  ⟨[("seven", make_meta nsC4 (getNode nsC4 0))], [("seven", Val.vint 7)],
   [Val.vnone], [some true], [], [], []⟩

/-- A chain where the dependency node declares an auxiliary function. -/
def nsC6 : List ProcessorNode :=
  [⟨sevenFn, [], "seven", false, false, [], [auxFn]⟩,
   ⟨doubleFn, [], "double", false, false, [0], []⟩]

/-- A diamond whose shared ancestor returns `None`. -/
def nsC8 : List ProcessorNode :=
  [⟨noneFn, [], "shared", false, false, [], []⟩,
   ⟨oneFn, [], "left", false, false, [0], []⟩,
   ⟨twoFn, [], "right", false, false, [0, 1], []⟩]

def procSeven : Proc := { processor := sevenFn }

def procUnknownDep : Proc :=
  { processor := doubleFn, dependencies := some [DepRef.byName "nope"] }

def procOmitted : Proc := { processor := doubleFn }

def procEmptyDeps : Proc := { processor := doubleFn, dependencies := some [] }

def procPrevFirst : Proc :=
  { processor := sevenFn, dependencies := some [DepRef.byInt (-1)] }

/-- The arena built from a two-descriptor pipeline whose second descriptor
omits its dependency field. -/
def ns7a : List ProcessorNode :=
  ((make_pipeline_tree [procSeven, procOmitted]).toOption.map Prod.fst).getD []

/-- The arena built from a two-descriptor pipeline whose second descriptor
has an explicit empty dependency list. -/
def ns7b : List ProcessorNode :=
  ((make_pipeline_tree [procSeven, procEmptyDeps]).toOption.map Prod.fst).getD
    []

/-! ## Basic lemmas about lists and the store -/

theorem getD_set_self {α : Type} :
    ∀ (l : List α) (i : Nat) (v d : α), i < l.length →
      (l.set i v).getD i d = v := by
  intro l
  induction l with
  | nil => intro i v d h; simp at h
  | cons a rest ih =>
    intro i v d h
    cases i with
    | zero => rfl
    | succ n =>
      simp only [List.set, List.getD, List.get?]
      have := ih n v d (by simpa using h)
      simpa [List.getD] using this

theorem getD_set_ne {α : Type} :
    ∀ (l : List α) (i k : Nat) (v d : α), i ≠ k →
      (l.set i v).getD k d = l.getD k d := by
  intro l
  induction l with
  | nil => intro i k v d _; simp [List.set]
  | cons a rest ih =>
    intro i k v d h
    cases i with
    | zero =>
      cases k with
      | zero => exact absurd rfl h
      | succ m => rfl
    | succ n =>
      cases k with
      | zero => rfl
      | succ m =>
        have := ih n m v d (by intro hc; exact h (by rw [hc]))
        simpa [List.getD] using this

theorem getD_replicate_lt {α : Type} :
    ∀ (n i : Nat) (a d : α), i < n →
      (List.replicate n a).getD i d = a := by
  intro n
  induction n with
  | zero => intro i a d h; simp at h
  | succ m ih =>
    intro i a d h
    cases i with
    | zero => rfl
    | succ k =>
      have := ih k a d (by omega)
      simpa [List.replicate, List.getD] using this

theorem getD_ge {α : Type} :
    ∀ (l : List α) (i : Nat) (d : α), l.length ≤ i → l.getD i d = d := by
  intro l
  induction l with
  | nil => intro i d _; simp [List.getD]
  | cons a rest ih =>
    intro i d h
    cases i with
    | zero => simp at h
    | succ n =>
      have := ih n d (by simpa using h)
      simpa [List.getD] using this

theorem getD_append_lt {α : Type} :
    ∀ (l1 l2 : List α) (k : Nat) (d : α), k < l1.length →
      (l1 ++ l2).getD k d = l1.getD k d := by
  intro l1
  induction l1 with
  | nil => intro l2 k d h; simp at h
  | cons a t ih =>
    intro l2 k d h
    cases k with
    | zero => rfl
    | succ m =>
      have := ih l2 m d (by simpa using h)
      simpa [List.getD] using this

theorem getD_append_self {α : Type} :
    ∀ (l1 : List α) (x d : α), (l1 ++ [x]).getD l1.length d = x := by
  intro l1
  induction l1 with
  | nil => intro x d; rfl
  | cons a t ih =>
    intro x d
    simp only [List.cons_append, List.length_cons, List.getD]
    exact ih x d

theorem lookupS_setS_self {α : Type} (l : List (String × α)) (key : String)
    (v : α) : lookupS (setS l key v) key = some v := by
  simp [lookupS, setS]

theorem lookupS_setS_ne {α : Type} (l : List (String × α)) (key key' : String)
    (v : α) (h : key ≠ key') : lookupS (setS l key v) key' = lookupS l key' := by
  simp [lookupS, setS, h]

theorem mapCongrMem {α β : Type} :
    ∀ (l : List α) (f g : α → β), (∀ a, a ∈ l → f a = g a) →
      l.map f = l.map g := by
  intro l
  induction l with
  | nil => intro f g _; rfl
  | cons a rest ih =>
    intro f g h
    simp only [List.map]
    rw [h a (by simp), ih f g (fun x hx => h x (by simp [hx]))]

theorem meta_eq_self (m : Meta) : meta_eq m m = true := by
  simp [meta_eq]

/-- `getValid` after `setValid` at the same index. -/
theorem getValid_setValid_self (st : St) (i : Nat) (b : Bool)
    (h : i < st.valid.length) : getValid (setValid st i b) i = some b := by
  simp only [getValid, setValid]
  exact getD_set_self st.valid i (some b) none h

/-- `getValid` after `setValid` at a different index. -/
theorem getValid_setValid_ne (st : St) (i k : Nat) (b : Bool) (h : i ≠ k) :
    getValid (setValid st i b) k = getValid st k := by
  simp only [getValid, setValid]
  exact getD_set_ne st.valid i k (some b) none h

/-- `getData` after `setData` at the same index. -/
theorem getData_setData_self (st : St) (i : Nat) (v : Val)
    (h : i < st.data.length) : getData (setData st i v) i = v := by
  simp only [getData, setData]
  exact getD_set_self st.data i v Val.vnone h

/-- `getData` after `setData` at a different index. -/
theorem getData_setData_ne (st : St) (i k : Nat) (v : Val) (h : i ≠ k) :
    getData (setData st i v) k = getData st k := by
  simp only [getData, setData]
  exact getD_set_ne st.data i k v Val.vnone h

/-! ## Case-by-case unfolding equations for the fuelled functions -/

theorem depsValidAux_nil (f : Nat → St → Bool × St) (st : St) :
    depsValidAux f [] st = (true, st) := rfl

theorem depsValidAux_cons_false (f : Nat → St → Bool × St) (j : Nat)
    (rest : List Nat) (st : St) (h : (f j st).1 = false) :
    depsValidAux f (j :: rest) st = (false, (f j st).2) := by
  simp [depsValidAux, h]

theorem depsValidAux_cons_true (f : Nat → St → Bool × St) (j : Nat)
    (rest : List Nat) (st : St) (h : (f j st).1 = true) :
    depsValidAux f (j :: rest) st = depsValidAux f rest (f j st).2 := by
  simp [depsValidAux, h]

theorem node_validF_impure (fuel : Nat) (ns : List ProcessorNode) (i : Nat)
    (st : St) (h : (getNode ns i).impure = true) :
    node_validF (fuel + 1) ns i st = (false, st) := by
  simp [node_validF, h]

theorem node_validF_memo (fuel : Nat) (ns : List ProcessorNode) (i : Nat)
    (st : St) (b : Bool) (h : (getNode ns i).impure = false)
    (hm : getValid st i = some b) :
    node_validF (fuel + 1) ns i st = (b, st) := by
  simp [node_validF, h, hm]

theorem node_validF_depsFalse (fuel : Nat) (ns : List ProcessorNode) (i : Nat)
    (st : St) (h : (getNode ns i).impure = false) (hm : getValid st i = none)
    (hd : (depsValidAux (node_validF fuel ns) (getNode ns i).dependencies st).1 =
      false) :
    node_validF (fuel + 1) ns i st =
      (false,
        setValid (depsValidAux (node_validF fuel ns)
          (getNode ns i).dependencies st).2 i false) := by
  simp [node_validF, h, hm, hd]

theorem node_validF_noMeta (fuel : Nat) (ns : List ProcessorNode) (i : Nat)
    (st : St) (h : (getNode ns i).impure = false) (hm : getValid st i = none)
    (hd : (depsValidAux (node_validF fuel ns) (getNode ns i).dependencies st).1 =
      true)
    (hlk : lookupS (depsValidAux (node_validF fuel ns)
        (getNode ns i).dependencies st).2.metas (getNode ns i).name = none) :
    node_validF (fuel + 1) ns i st =
      (false,
        setValid
          { (depsValidAux (node_validF fuel ns)
              (getNode ns i).dependencies st).2 with
            mloads := (depsValidAux (node_validF fuel ns)
              (getNode ns i).dependencies st).2.mloads ++ [(getNode ns i).name] }
          i false) := by
  simp [node_validF, h, hm, hd, hlk]

theorem node_validF_metaCmp (fuel : Nat) (ns : List ProcessorNode) (i : Nat)
    (st : St) (meta_data : Meta) (h : (getNode ns i).impure = false)
    (hm : getValid st i = none)
    (hd : (depsValidAux (node_validF fuel ns) (getNode ns i).dependencies st).1 =
      true)
    (hlk : lookupS (depsValidAux (node_validF fuel ns)
        (getNode ns i).dependencies st).2.metas (getNode ns i).name =
      some meta_data) :
    node_validF (fuel + 1) ns i st =
      (meta_eq (make_meta ns (getNode ns i)) meta_data,
        setValid
          { (depsValidAux (node_validF fuel ns)
              (getNode ns i).dependencies st).2 with
            mloads := (depsValidAux (node_validF fuel ns)
              (getNode ns i).dependencies st).2.mloads ++ [(getNode ns i).name] }
          i (meta_eq (make_meta ns (getNode ns i)) meta_data)) := by
  cases he : meta_eq (make_meta ns (getNode ns i)) meta_data with
  | true => simp [node_validF, h, hm, hd, hlk, he]
  | false => simp [node_validF, h, hm, hd, hlk, he]

theorem getInputsAux_nil (g : Nat → St → Val × St) (st : St) :
    getInputsAux g [] st = ([], st) := rfl

theorem getInputsAux_cons (g : Nat → St → Val × St) (j : Nat) (rest : List Nat)
    (st : St) :
    getInputsAux g (j :: rest) st =
      ((g j st).1 :: (getInputsAux g rest (g j st).2).1,
       (getInputsAux g rest (g j st).2).2) := rfl

theorem gen_and_cacheAux_nc (g : Nat → St → Val × St) (ns : List ProcessorNode)
    (i : Nat) (st : St) (hnc : (getNode ns i).no_caching = true) :
    gen_and_cacheAux g ns i st =
      (run_processor (getNode ns i).processor (getNode ns i).args
        (getInputsAux g (getNode ns i).dependencies st).1,
       { (getInputsAux g (getNode ns i).dependencies st).2 with
         calls := (getInputsAux g (getNode ns i).dependencies st).2.calls ++ [i],
         metas := setS (getInputsAux g (getNode ns i).dependencies st).2.metas
           (getNode ns i).name (make_meta ns (getNode ns i)) }) := by
  simp [gen_and_cacheAux, hnc]

theorem gen_and_cacheAux_cache (g : Nat → St → Val × St)
    (ns : List ProcessorNode) (i : Nat) (st : St)
    (hnc : (getNode ns i).no_caching = false) :
    gen_and_cacheAux g ns i st =
      (run_processor (getNode ns i).processor (getNode ns i).args
        (getInputsAux g (getNode ns i).dependencies st).1,
       { (getInputsAux g (getNode ns i).dependencies st).2 with
         calls := (getInputsAux g (getNode ns i).dependencies st).2.calls ++ [i],
         metas := setS (getInputsAux g (getNode ns i).dependencies st).2.metas
           (getNode ns i).name (make_meta ns (getNode ns i)),
         vals := setS (getInputsAux g (getNode ns i).dependencies st).2.vals
           (getNode ns i).name
           (run_processor (getNode ns i).processor (getNode ns i).args
             (getInputsAux g (getNode ns i).dependencies st).1) }) := by
  simp [gen_and_cacheAux, hnc]

theorem get_dataF_slotHit (fuel : Nat) (ns : List ProcessorNode) (i : Nat)
    (st : St)
    (h : getData (node_validF (fuel + 1) ns i st).2 i ≠ Val.vnone) :
    get_dataF (fuel + 1) ns i st =
      (getData (node_validF (fuel + 1) ns i st).2 i,
       (node_validF (fuel + 1) ns i st).2) := by
  simp [get_dataF, h]

theorem get_dataF_genInvalid (fuel : Nat) (ns : List ProcessorNode) (i : Nat)
    (st : St) (hr : (node_validF (fuel + 1) ns i st).1 = false)
    (h : getData (node_validF (fuel + 1) ns i st).2 i = Val.vnone) :
    get_dataF (fuel + 1) ns i st =
      ((gen_and_cacheAux (get_dataF fuel ns) ns i
          (node_validF (fuel + 1) ns i st).2).1,
       setData (gen_and_cacheAux (get_dataF fuel ns) ns i
          (node_validF (fuel + 1) ns i st).2).2 i
         (gen_and_cacheAux (get_dataF fuel ns) ns i
          (node_validF (fuel + 1) ns i st).2).1) := by
  simp [get_dataF, hr, h]

theorem get_dataF_genNoCaching (fuel : Nat) (ns : List ProcessorNode) (i : Nat)
    (st : St) (hnc : (getNode ns i).no_caching = true)
    (h : getData (node_validF (fuel + 1) ns i st).2 i = Val.vnone) :
    get_dataF (fuel + 1) ns i st =
      ((gen_and_cacheAux (get_dataF fuel ns) ns i
          (node_validF (fuel + 1) ns i st).2).1,
       setData (gen_and_cacheAux (get_dataF fuel ns) ns i
          (node_validF (fuel + 1) ns i st).2).2 i
         (gen_and_cacheAux (get_dataF fuel ns) ns i
          (node_validF (fuel + 1) ns i st).2).1) := by
  simp [get_dataF, hnc, h]

theorem get_dataF_loadHit (fuel : Nat) (ns : List ProcessorNode) (i : Nat)
    (st : St) (v : Val) (hr : (node_validF (fuel + 1) ns i st).1 = true)
    (hnc : (getNode ns i).no_caching = false)
    (h : getData (node_validF (fuel + 1) ns i st).2 i = Val.vnone)
    (hlk : lookupS (node_validF (fuel + 1) ns i st).2.vals
      (getNode ns i).name = some v)
    (hv : v ≠ Val.vnone) :
    get_dataF (fuel + 1) ns i st =
      (v, { (node_validF (fuel + 1) ns i st).2 with
            loads := (node_validF (fuel + 1) ns i st).2.loads ++ [i] }) := by
  simp [get_dataF, hr, hnc, h, hlk, hv]

theorem get_dataF_loadMissGen (fuel : Nat) (ns : List ProcessorNode) (i : Nat)
    (st : St) (hr : (node_validF (fuel + 1) ns i st).1 = true)
    (hnc : (getNode ns i).no_caching = false)
    (h : getData (node_validF (fuel + 1) ns i st).2 i = Val.vnone)
    (hlk : lookupS (node_validF (fuel + 1) ns i st).2.vals
      (getNode ns i).name = none) :
    get_dataF (fuel + 1) ns i st =
      ((gen_and_cacheAux (get_dataF fuel ns) ns i
          { (node_validF (fuel + 1) ns i st).2 with
            loads := (node_validF (fuel + 1) ns i st).2.loads ++ [i] }).1,
       setData (gen_and_cacheAux (get_dataF fuel ns) ns i
          { (node_validF (fuel + 1) ns i st).2 with
            loads := (node_validF (fuel + 1) ns i st).2.loads ++ [i] }).2 i
         (gen_and_cacheAux (get_dataF fuel ns) ns i
          { (node_validF (fuel + 1) ns i st).2 with
            loads := (node_validF (fuel + 1) ns i st).2.loads ++ [i] }).1) := by
  simp [get_dataF, hr, hnc, h, hlk]

theorem get_dataF_loadNoneGen (fuel : Nat) (ns : List ProcessorNode) (i : Nat)
    (st : St) (hr : (node_validF (fuel + 1) ns i st).1 = true)
    (hnc : (getNode ns i).no_caching = false)
    (h : getData (node_validF (fuel + 1) ns i st).2 i = Val.vnone)
    (hlk : lookupS (node_validF (fuel + 1) ns i st).2.vals
      (getNode ns i).name = some Val.vnone) :
    get_dataF (fuel + 1) ns i st =
      ((gen_and_cacheAux (get_dataF fuel ns) ns i
          { (node_validF (fuel + 1) ns i st).2 with
            loads := (node_validF (fuel + 1) ns i st).2.loads ++ [i] }).1,
       setData (gen_and_cacheAux (get_dataF fuel ns) ns i
          { (node_validF (fuel + 1) ns i st).2 with
            loads := (node_validF (fuel + 1) ns i st).2.loads ++ [i] }).2 i
         (gen_and_cacheAux (get_dataF fuel ns) ns i
          { (node_validF (fuel + 1) ns i st).2 with
            loads := (node_validF (fuel + 1) ns i st).2.loads ++ [i] }).1) := by
  simp [get_dataF, hr, hnc, h, hlk]

/-! ## The `node_valid` frame: only `valid` slots and `mloads` change -/

/-- What `node_valid` leaves untouched: the durable store, the data slots,
the invocation and value-load logs, and the length of the memo vector. -/
def NVFrame (st st' : St) : Prop :=
  st'.metas = st.metas ∧ st'.vals = st.vals ∧ st'.data = st.data ∧
  st'.calls = st.calls ∧ st'.loads = st.loads ∧
  st'.valid.length = st.valid.length

theorem NVFrame_rfl (st : St) : NVFrame st st :=
  ⟨rfl, rfl, rfl, rfl, rfl, rfl⟩

theorem NVFrame_trans {st1 st2 st3 : St} (h1 : NVFrame st1 st2)
    (h2 : NVFrame st2 st3) : NVFrame st1 st3 := by
  obtain ⟨a1, b1, c1, d1, e1, f1⟩ := h1
  obtain ⟨a2, b2, c2, d2, e2, f2⟩ := h2
  exact ⟨a2.trans a1, b2.trans b1, c2.trans c1, d2.trans d1, e2.trans e1,
    f2.trans f1⟩

theorem NVFrame_setValid (st : St) (i : Nat) (b : Bool) :
    NVFrame st (setValid st i b) :=
  ⟨rfl, rfl, rfl, rfl, rfl, by simp [setValid]⟩

theorem NVFrame_mload (st : St) (names : List String) :
    NVFrame st { st with mloads := st.mloads ++ names } :=
  ⟨rfl, rfl, rfl, rfl, rfl, rfl⟩

/-- `node_valid` (and its dependency loop) only sets `valid` memos and
appends to `mloads`. -/
theorem node_validF_frame (ns : List ProcessorNode) :
    ∀ fuel : Nat,
      (∀ i st, NVFrame st (node_validF fuel ns i st).2) ∧
      (∀ l st, NVFrame st (depsValidAux (node_validF fuel ns) l st).2) := by
  intro fuel
  induction fuel with
  | zero =>
    constructor
    · intro i st; exact NVFrame_rfl st
    · intro l st
      induction l with
      | nil => exact NVFrame_rfl st
      | cons j rest _ => simp only [depsValidAux, node_validF]; exact NVFrame_rfl st
  | succ fuel ih =>
    have hnv : ∀ i st, NVFrame st (node_validF (fuel + 1) ns i st).2 := by
      intro i st
      simp only [node_validF]
      split
      · exact NVFrame_rfl st
      · split
        · exact NVFrame_rfl st
        · split
          · exact NVFrame_trans (ih.2 (getNode ns i).dependencies st)
              (NVFrame_setValid _ i false)
          · split
            · exact NVFrame_trans (ih.2 (getNode ns i).dependencies st)
                (NVFrame_trans (NVFrame_mload _ _) (NVFrame_setValid _ i false))
            · split
              · exact NVFrame_trans (ih.2 (getNode ns i).dependencies st)
                  (NVFrame_trans (NVFrame_mload _ _) (NVFrame_setValid _ i true))
              · exact NVFrame_trans (ih.2 (getNode ns i).dependencies st)
                  (NVFrame_trans (NVFrame_mload _ _) (NVFrame_setValid _ i false))
    refine ⟨hnv, ?_⟩
    intro l st
    induction l generalizing st with
    | nil => exact NVFrame_rfl st
    | cons j rest ihl =>
      simp only [depsValidAux]
      split
      · exact NVFrame_trans (hnv j st) (ihl (node_validF (fuel + 1) ns j st).2)
      · exact hnv j st

/-! ## Denotation stability and the first-run lemmas -/

/-- On a well-formed arena, any sufficient fuel computes the same
denotational value. -/
theorem denotF_stable (ns : List ProcessorNode) (hwf : WFdeps ns) :
    ∀ fuel i, i < ns.length → i + 1 ≤ fuel → denotF fuel ns i = dval ns i := by
  intro fuel
  induction fuel using Nat.strong_induction_on with
  | _ fuel ih =>
    intro i hi hf
    cases fuel with
    | zero => omega
    | succ f =>
      have hstep : denotF (f + 1) ns i =
          run_processor (getNode ns i).processor (getNode ns i).args
            ((getNode ns i).dependencies.map (denotF f ns)) := rfl
      have hstep2 : dval ns i =
          run_processor (getNode ns i).processor (getNode ns i).args
            ((getNode ns i).dependencies.map (denotF i ns)) := rfl
      have h1 : (getNode ns i).dependencies.map (denotF f ns) =
          (getNode ns i).dependencies.map (dval ns) := by
        refine mapCongrMem _ _ _ (fun j hj => ?_)
        have hji : j < i := hwf i hi j hj
        exact ih f (Nat.lt_succ_self f) j (Nat.lt_trans hji hi) (by omega)
      have h2 : (getNode ns i).dependencies.map (denotF i ns) =
          (getNode ns i).dependencies.map (dval ns) := by
        refine mapCongrMem _ _ _ (fun j hj => ?_)
        have hji : j < i := hwf i hi j hj
        exact ih i (by omega) j (Nat.lt_trans hji hi) (by omega)
      rw [hstep, hstep2, h1, h2]

/-- The denotational value unfolds through the dependency values. -/
theorem dval_eq (ns : List ProcessorNode) (hwf : WFdeps ns) (i : Nat)
    (hi : i < ns.length) :
    dval ns i =
      run_processor (getNode ns i).processor (getNode ns i).args
        ((getNode ns i).dependencies.map (dval ns)) := by
  have hstep2 : dval ns i =
      run_processor (getNode ns i).processor (getNode ns i).args
        ((getNode ns i).dependencies.map (denotF i ns)) := rfl
  rw [hstep2]
  congr 1
  refine mapCongrMem _ _ _ (fun j hj => ?_)
  have hji : j < i := hwf i hi j hj
  exact denotF_stable ns hwf i j (Nat.lt_trans hji hi) (by omega)

/-- The empty-store fresh state satisfies the first-run invariant. -/
theorem Inv1_init (ns : List ProcessorNode) : Inv1 ns (initSt ns.length) := by
  refine ⟨by simp [initSt], by simp [initSt], ?_, ?_, ?_, ?_⟩
  · intro i hi
    left
    simp only [getValid, initSt]
    exact getD_replicate_lt ns.length i none none hi
  · intro i _; left; rfl
  · intro i _; left; rfl
  · intro i hi
    left
    simp only [getData, initSt]
    exact getD_replicate_lt ns.length i Val.vnone Val.vnone hi

/-- First run, validity check: over a state satisfying `Inv1`, every node is
reported invalid, the invariant is preserved, only memos change (to
`false`), and previously-false memos stay false. -/
theorem nodeValid_run1 (ns : List ProcessorNode) (hwf : WFdeps ns)
    (hcache : allCacheable ns) :
    ∀ fuel i st, i + 1 ≤ fuel → i < ns.length → Inv1 ns st →
      (node_validF fuel ns i st).1 = false ∧
      Inv1 ns (node_validF fuel ns i st).2 ∧
      getValid (node_validF fuel ns i st).2 i = some false ∧
      (∀ k, getValid st k = some false →
        getValid (node_validF fuel ns i st).2 k = some false) := by
  intro fuel
  induction fuel with
  | zero => intro i st hf _ _; omega
  | succ fuel ih =>
    intro i st hf hi hinv
    have himp : (getNode ns i).impure = false := (hcache i hi).1
    obtain ⟨hdl, hvl, hA, hB, hC, hD⟩ := hinv
    rcases hA i hi with hm | hm
    · -- memo not yet set: compute
      cases hdeps : (getNode ns i).dependencies with
      | nil =>
        -- no dependencies: the loop succeeds, the metadata record is absent
        have hmeta : lookupS st.metas (getNode ns i).name = none := by
          rcases hB i hi with h | ⟨_, hmf⟩
          · exact h
          · rw [hm] at hmf; cases hmf
        have hdv : depsValidAux (node_validF fuel ns)
            (getNode ns i).dependencies st = (true, st) := by
          rw [hdeps]; rfl
        have heq := node_validF_noMeta fuel ns i st himp hm
          (by rw [hdv]) (by rw [hdv]; exact hmeta)
        rw [hdv] at heq
        set st1 : St := { st with mloads := st.mloads ++ [(getNode ns i).name] }
          with hst1
        have hvl1 : st1.valid = st.valid := rfl
        refine ⟨by rw [heq], ?_, ?_, ?_⟩
        · -- Inv1 after setting the memo to false
          rw [heq]
          refine ⟨by simpa [setValid] using hdl, by simpa [setValid] using hvl,
            ?_, ?_, ?_, ?_⟩
          · intro k hk
            rcases eq_or_ne i k with rfl | hne
            · right
              exact getValid_setValid_self st1 i false (by rw [hvl1, hvl]; exact hi)
            · rw [getValid_setValid_ne st1 i k false hne]
              exact hA k hk
          · intro k hk
            rcases eq_or_ne i k with rfl | hne
            · rcases hB i hk with h | ⟨hmm, _⟩
              · left; exact h
              · right
                exact ⟨hmm, getValid_setValid_self st1 i false
                  (by rw [hvl1, hvl]; exact hi)⟩
            · rcases hB k hk with h | ⟨hmm, hmf⟩
              · left; exact h
              · right
                rw [getValid_setValid_ne st1 i k false hne]
                exact ⟨hmm, hmf⟩
          · exact hC
          · exact hD
        · rw [heq]
          exact getValid_setValid_self st1 i false (by rw [hvl1, hvl]; exact hi)
        · intro k hk
          rw [heq]
          rcases eq_or_ne i k with rfl | hne
          · exact getValid_setValid_self st1 i false (by rw [hvl1, hvl]; exact hi)
          · rw [getValid_setValid_ne st1 i k false hne]; exact hk
      | cons j rest =>
        -- the first dependency is reported invalid and the loop stops
        have hjmem : j ∈ (getNode ns i).dependencies := by rw [hdeps]; simp
        have hji : j < i := hwf i hi j hjmem
        have hIH := ih j st (by omega) (Nat.lt_trans hji hi)
          ⟨hdl, hvl, hA, hB, hC, hD⟩
        obtain ⟨hj1, hjinv, hjv, hjmono⟩ := hIH
        have hdv : depsValidAux (node_validF fuel ns)
            (getNode ns i).dependencies st =
            (false, (node_validF fuel ns j st).2) := by
          rw [hdeps]
          exact depsValidAux_cons_false _ j rest st hj1
        have heq := node_validF_depsFalse fuel ns i st himp hm (by rw [hdv])
        rw [hdv] at heq
        set stj : St := (node_validF fuel ns j st).2 with hstj
        obtain ⟨jdl, jvl, jA, jB, jC, jD⟩ := hjinv
        refine ⟨by rw [heq], ?_, ?_, ?_⟩
        · rw [heq]
          refine ⟨by simpa [setValid] using jdl, by simpa [setValid] using jvl,
            ?_, ?_, ?_, ?_⟩
          · intro k hk
            rcases eq_or_ne i k with rfl | hne
            · right
              exact getValid_setValid_self stj i false (by rw [jvl]; exact hi)
            · rw [getValid_setValid_ne stj i k false hne]
              exact jA k hk
          · intro k hk
            rcases eq_or_ne i k with rfl | hne
            · rcases jB i hk with h | ⟨hmm, _⟩
              · left; exact h
              · right
                exact ⟨hmm, getValid_setValid_self stj i false
                  (by rw [jvl]; exact hi)⟩
            · rcases jB k hk with h | ⟨hmm, hmf⟩
              · left; exact h
              · right
                rw [getValid_setValid_ne stj i k false hne]
                exact ⟨hmm, hmf⟩
          · exact jC
          · exact jD
        · rw [heq]
          exact getValid_setValid_self stj i false (by rw [jvl]; exact hi)
        · intro k hk
          rw [heq]
          rcases eq_or_ne i k with rfl | hne
          · exact getValid_setValid_self stj i false (by rw [jvl]; exact hi)
          · rw [getValid_setValid_ne stj i k false hne]
            exact hjmono k hk
    · -- memo already false
      have heq := node_validF_memo fuel ns i st false himp hm
      rw [heq]
      exact ⟨rfl, ⟨hdl, hvl, hA, hB, hC, hD⟩, hm, fun _ hk => hk⟩

/-- Data-slot reads only depend on the `data` field. -/
theorem getData_eq_of_data (st st' : St) (h : st'.data = st.data) (k : Nat) :
    getData st' k = getData st k := by
  simp [getData, h]

/-- Memo reads only depend on the `valid` field. -/
theorem getValid_eq_of_valid (st st' : St) (h : st'.valid = st.valid)
    (k : Nat) : getValid st' k = getValid st k := by
  simp [getValid, h]

/-- First run, evaluation: over a state satisfying `Inv1`, `get_data`
computes the denotational value, preserves the invariant, fills the node's
slot, leaves filled slots and slots above `i` untouched, and keeps false
memos false. -/
theorem getData_run1 (ns : List ProcessorNode) (hwf : WFdeps ns)
    (hdist : distinctNames ns) (hcache : allCacheable ns)
    (hnz : nonNoneVals ns) :
    ∀ fuel i st, i + 1 ≤ fuel → i < ns.length → Inv1 ns st →
      (get_dataF fuel ns i st).1 = dval ns i ∧
      Inv1 ns (get_dataF fuel ns i st).2 ∧
      getData (get_dataF fuel ns i st).2 i = dval ns i ∧
      (∀ k, k < ns.length → getData st k ≠ Val.vnone →
        getData (get_dataF fuel ns i st).2 k = getData st k) ∧
      (∀ k, getValid st k = some false →
        getValid (get_dataF fuel ns i st).2 k = some false) ∧
      (∀ k, i < k → getData (get_dataF fuel ns i st).2 k = getData st k) := by
  intro fuel
  induction fuel with
  | zero => intro i st hf _ _; omega
  | succ fuel ih =>
    intro i st hf hi hinv
    have hv := nodeValid_run1 ns hwf hcache (fuel + 1) i st (by omega) hi hinv
    obtain ⟨hv1, hvinv, hvmemo, hvmono⟩ := hv
    obtain ⟨fm, fv, fd, fc, fl, fln⟩ := (node_validF_frame ns (fuel + 1)).1 i st
    obtain ⟨dl1, vl1, A1, B1, Cs1, Ds1⟩ := hvinv
    rcases Ds1 i hi with hslot | ⟨hslot, hmi, hvi, _⟩
    · -- the slot is empty: fall through to `gen_and_cache`
      have heq := get_dataF_genInvalid fuel ns i st hv1 hslot
      have hnc : (getNode ns i).no_caching = false := (hcache i hi).2
      -- the dependency-evaluation loop
      have hloop : ∀ l st0, (∀ j, j ∈ l → j < i) → Inv1 ns st0 →
          (getInputsAux (get_dataF fuel ns) l st0).1 = l.map (dval ns) ∧
          Inv1 ns (getInputsAux (get_dataF fuel ns) l st0).2 ∧
          (∀ x, x ∈ l →
            getData (getInputsAux (get_dataF fuel ns) l st0).2 x = dval ns x) ∧
          (∀ k, k < ns.length → getData st0 k ≠ Val.vnone →
            getData (getInputsAux (get_dataF fuel ns) l st0).2 k =
              getData st0 k) ∧
          (∀ k, getValid st0 k = some false →
            getValid (getInputsAux (get_dataF fuel ns) l st0).2 k =
              some false) ∧
          (∀ k, (∀ j, j ∈ l → j < k) →
            getData (getInputsAux (get_dataF fuel ns) l st0).2 k =
              getData st0 k) := by
        intro l
        induction l with
        | nil =>
          intro st0 _ hinv0
          rw [getInputsAux_nil]
          exact ⟨rfl, hinv0, fun x hx => absurd hx (List.not_mem_nil x),
            fun _ _ _ => rfl, fun _ hk => hk, fun _ _ => rfl⟩
        | cons x rest ihl =>
          intro st0 hmem hinv0
          have hxi : x < i := hmem x (by simp)
          have hx := ih x st0 (by omega) (Nat.lt_trans hxi hi) hinv0
          obtain ⟨x1, x2, x3, x4, x5, x6⟩ := hx
          have hrest := ihl (get_dataF fuel ns x st0).2
            (fun y hy => hmem y (by simp [hy])) x2
          obtain ⟨r1, r2, r3, r4, r5, r6⟩ := hrest
          rw [getInputsAux_cons]
          refine ⟨?_, r2, ?_, ?_, ?_, ?_⟩
          · simp only [List.map]
            rw [x1, r1]
          · intro y hy
            rcases List.mem_cons.mp hy with rfl | hy'
            · have hylen : y < ns.length := Nat.lt_trans hxi hi
              have : getData (get_dataF fuel ns y st0).2 y = dval ns y := x3
              rw [r4 y hylen (by rw [this]; exact hnz y hylen), this]
            · exact r3 y hy'
          · intro k hk hkne
            rw [r4 k hk (by rw [x4 k hk hkne]; exact hkne), x4 k hk hkne]
          · intro k hk
            exact r5 k (x5 k hk)
          · intro k hk
            have hxk : x < k := hk x (by simp)
            rw [r6 k (fun j hj => hk j (by simp [hj])), x6 k hxk]
      have hl := hloop (getNode ns i).dependencies
        (node_validF (fuel + 1) ns i st).2 (fun j hj => hwf i hi j hj)
        ⟨dl1, vl1, A1, B1, Cs1, Ds1⟩
      obtain ⟨l1, l2, l3, l4, l5, l6⟩ := hl
      obtain ⟨dl2, vl2, A2, B2, Cs2, Ds2⟩ := l2
      -- unfold gen_and_cache
      rw [heq, gen_and_cacheAux_cache (get_dataF fuel ns) ns i _ hnc]
      set st2 := (getInputsAux (get_dataF fuel ns)
        (getNode ns i).dependencies (node_validF (fuel + 1) ns i st).2).2
        with hst2def
      -- the computed value is the denotational value
      have hval : run_processor (getNode ns i).processor (getNode ns i).args
          (getInputsAux (get_dataF fuel ns) (getNode ns i).dependencies
            (node_validF (fuel + 1) ns i st).2).1 = dval ns i := by
        rw [l1, ← dval_eq ns hwf i hi]
      rw [hval]
      -- names of the states after the bookkeeping writes
      set stW : St := { st2 with
        calls := st2.calls ++ [i],
        metas := setS st2.metas (getNode ns i).name (make_meta ns (getNode ns i)),
        vals := setS st2.vals (getNode ns i).name (dval ns i) } with hstW
      have hWdata : stW.data = st2.data := rfl
      have hWvalid : stW.valid = st2.valid := rfl
      have hFdata : (setData stW i (dval ns i)).data = st2.data.set i (dval ns i) := rfl
      have hFvalid : (setData stW i (dval ns i)).valid = st2.valid := rfl
      have hFmetas : (setData stW i (dval ns i)).metas =
          setS st2.metas (getNode ns i).name (make_meta ns (getNode ns i)) := rfl
      have hFvals : (setData stW i (dval ns i)).vals =
          setS st2.vals (getNode ns i).name (dval ns i) := rfl
      -- slots below the surface: slot i is still empty at st2
      have hslot2 : getData st2 i = Val.vnone := by
        rw [l6 i (fun j hj => hwf i hi j hj)]
        exact hslot
      have hilen2 : i < st2.data.length := by rw [dl2]; exact hi
      have hmemo2 : getValid st2 i = some false := l5 i hvmemo
      have hgetF : ∀ k, getData (setData stW i (dval ns i)) k =
          (st2.data.set i (dval ns i)).getD k Val.vnone := by
        intro k; rfl
      have hgetFi : getData (setData stW i (dval ns i)) i = dval ns i := by
        rw [hgetF]; exact getD_set_self _ i _ _ hilen2
      have hgetFne : ∀ k, k ≠ i →
          getData (setData stW i (dval ns i)) k = getData st2 k := by
        intro k hk
        rw [hgetF]
        exact getD_set_ne _ i k _ _ (fun h => hk h.symm)
      have hvalF : ∀ k, getValid (setData stW i (dval ns i)) k =
          getValid st2 k := by
        intro k
        exact getValid_eq_of_valid st2 _ hFvalid k
      have hnamene : ∀ k, k < ns.length → k ≠ i →
          (getNode ns i).name ≠ (getNode ns k).name := by
        intro k hk hne hcontra
        exact hne (hdist k hk i hi hcontra.symm)
      refine ⟨rfl, ?_, hgetFi, ?_, ?_, ?_⟩
      · -- Inv1 of the final state
        refine ⟨?_, ?_, ?_, ?_, ?_, ?_⟩
        · rw [hFdata, List.length_set]; exact dl2
        · rw [hFvalid]; exact vl2
        · intro k hk
          rw [hvalF k]; exact A2 k hk
        · intro k hk
          rw [hFmetas]
          rcases eq_or_ne k i with rfl | hkne
          · right
            rw [lookupS_setS_self, hvalF k]
            exact ⟨rfl, hmemo2⟩
          · rw [lookupS_setS_ne _ _ _ _ (hnamene k hk hkne)]
            rcases B2 k hk with h | ⟨hsome, hmf⟩
            · left; exact h
            · right; rw [hvalF k]; exact ⟨hsome, hmf⟩
        · intro k hk
          rw [hFvals]
          rcases eq_or_ne k i with rfl | hkne
          · right; rw [lookupS_setS_self]
          · rw [lookupS_setS_ne _ _ _ _ (hnamene k hk hkne)]
            exact Cs2 k hk
        · intro k hk
          rcases eq_or_ne k i with rfl | hkne
          · right
            rw [hgetFi, hFmetas, hFvals, lookupS_setS_self, lookupS_setS_self]
            refine ⟨rfl, rfl, rfl, ?_⟩
            intro j hj
            have hji : j < k := hwf k hk j hj
            rw [hgetFne j (by omega), l3 j hj]
            exact hnz j (Nat.lt_trans hji hk)
          · rcases Ds2 k hk with h | ⟨hdv, hmm, hvv, hhd⟩
            · left; rw [hgetFne k hkne]; exact h
            · right
              rw [hgetFne k hkne, hFmetas, hFvals,
                lookupS_setS_ne _ _ _ _ (hnamene k hk hkne),
                lookupS_setS_ne _ _ _ _ (hnamene k hk hkne)]
              refine ⟨hdv, hmm, hvv, ?_⟩
              intro j hj
              rcases eq_or_ne j i with rfl | hjne
              · rw [hgetFi]; exact hnz j hi
              · rw [hgetFne j hjne]; exact hhd j hj
      · -- previously filled slots are untouched
        intro k hk hkd
        have hst1d : getData (node_validF (fuel + 1) ns i st).2 k =
            getData st k := getData_eq_of_data st _ fd k
        have hkne : k ≠ i := by
          intro hcontra
          apply hkd
          rw [← hst1d, hcontra]
          exact hslot
        rw [hgetFne k hkne, l4 k hk (by rw [hst1d]; exact hkd), hst1d]
      · -- false memos stay false
        intro k hk
        rw [hvalF k]
        exact l5 k (hvmono k hk)
      · -- slots above `i` are untouched
        intro k hk
        rw [hgetFne k (by omega), l6 k (fun j hj => Nat.lt_trans (hwf i hi j hj) hk)]
        exact getData_eq_of_data st _ fd k
    · -- the slot already holds the value computed earlier this run
      have hne : getData (node_validF (fuel + 1) ns i st).2 i ≠ Val.vnone := by
        rw [hslot]; exact hnz i hi
      have heq := get_dataF_slotHit fuel ns i st hne
      rw [heq]
      refine ⟨hslot, ⟨dl1, vl1, A1, B1, Cs1, Ds1⟩, hslot, ?_, ?_, ?_⟩
      · intro k _ _; exact getData_eq_of_data st _ fd k
      · intro k hk; exact hvmono k hk
      · intro k _; exact getData_eq_of_data st _ fd k

/-! ## Second-run lemmas: serving a ready pipeline from the store -/

/-- Second run, validity check: on a ready node set, `node_valid` reports
`true` and preserves the re-run invariant. -/
theorem nodeValid_run2 (ns : List ProcessorNode) (hwf : WFdeps ns)
    (hcache : allCacheable ns) (P : Nat → Prop) (M : List (String × Meta))
    (V : List (String × Val)) (hready : ReadySet ns P M V) :
    ∀ fuel i st, i + 1 ≤ fuel → P i → Inv2 ns P M V st →
      (node_validF fuel ns i st).1 = true ∧
      Inv2 ns P M V (node_validF fuel ns i st).2 := by
  intro fuel
  induction fuel with
  | zero => intro i st hf _ _; omega
  | succ fuel ih =>
    intro i st hf hP hinv
    obtain ⟨hi, hmi, hvi, hdepsP⟩ := hready i hP
    have himp : (getNode ns i).impure = false := (hcache i hi).1
    obtain ⟨hM, hV, hdl, hvl, hdataE, hvalidE, hcalls⟩ := hinv
    rcases hvalidE i hi with hm | ⟨hm, _⟩
    · -- memo unset: check dependencies, then compare metadata
      have hloop : ∀ l st0, (∀ j, j ∈ l → P j ∧ j < i) →
          Inv2 ns P M V st0 →
          (depsValidAux (node_validF fuel ns) l st0).1 = true ∧
          Inv2 ns P M V (depsValidAux (node_validF fuel ns) l st0).2 := by
        intro l
        induction l with
        | nil => intro st0 _ h0; rw [depsValidAux_nil]; exact ⟨rfl, h0⟩
        | cons x rest ihl =>
          intro st0 hmem h0
          obtain ⟨hPx, hxi⟩ := hmem x (by simp)
          have hx := ih x st0 (by omega) hPx h0
          rw [depsValidAux_cons_true _ x rest st0 hx.1]
          exact ihl _ (fun y hy => hmem y (by simp [hy])) hx.2
      have hl := hloop (getNode ns i).dependencies st
        (fun j hj => ⟨hdepsP j hj, hwf i hi j hj⟩)
        ⟨hM, hV, hdl, hvl, hdataE, hvalidE, hcalls⟩
      obtain ⟨hl1, hl2⟩ := hl
      obtain ⟨hM2, hV2, hdl2, hvl2, hdataE2, hvalidE2, hcalls2⟩ := hl2
      have hlk : lookupS (depsValidAux (node_validF fuel ns)
          (getNode ns i).dependencies st).2.metas (getNode ns i).name =
          some (make_meta ns (getNode ns i)) := by
        rw [hM2]; exact hmi
      have heq := node_validF_metaCmp fuel ns i st
        (make_meta ns (getNode ns i)) himp hm hl1 hlk
      rw [meta_eq_self] at heq
      rw [heq]
      refine ⟨rfl, hM2, hV2, ?_, ?_, hdataE2, ?_, hcalls2⟩
      · simpa [setValid] using hdl2
      · simpa [setValid] using hvl2
      · intro k hk
        rcases eq_or_ne k i with rfl | hkne
        · right
          refine ⟨?_, hP⟩
          exact getValid_setValid_self _ k true (by rw [hvl2]; exact hk)
        · rw [getValid_setValid_ne _ i k true (fun h => hkne h.symm)]
          exact hvalidE2 k hk
    · -- memo already true
      rw [node_validF_memo fuel ns i st true himp hm]
      exact ⟨rfl, hM, hV, hdl, hvl, hdataE, hvalidE, hcalls⟩

/-- Second run, evaluation: a ready node is served from the persisted value;
nothing is recomputed and no slot or store record changes. -/
theorem getData_run2 (ns : List ProcessorNode) (hwf : WFdeps ns)
    (hcache : allCacheable ns) (hnz : nonNoneVals ns) (P : Nat → Prop)
    (M : List (String × Meta)) (V : List (String × Val))
    (hready : ReadySet ns P M V) :
    ∀ fuel i st, i + 1 ≤ fuel → P i → Inv2 ns P M V st →
      (get_dataF fuel ns i st).1 = dval ns i ∧
      Inv2 ns P M V (get_dataF fuel ns i st).2 := by
  intro fuel
  cases fuel with
  | zero => intro i st hf _ _; omega
  | succ fuel =>
    intro i st hf hP hinv
    obtain ⟨hi, hmi, hvi, hdepsP⟩ := hready i hP
    have hv := nodeValid_run2 ns hwf hcache P M V hready (fuel + 1) i st
      (by omega) hP hinv
    obtain ⟨hv1, hvinv⟩ := hv
    obtain ⟨hM1, hV1, hdl1, hvl1, hdataE1, hvalidE1, hcalls1⟩ := hvinv
    have hnc : (getNode ns i).no_caching = false := (hcache i hi).2
    have hslot : getData (node_validF (fuel + 1) ns i st).2 i = Val.vnone :=
      hdataE1 i hi
    have hlk : lookupS (node_validF (fuel + 1) ns i st).2.vals
        (getNode ns i).name = some (dval ns i) := by
      rw [hV1]; exact hvi
    have heq := get_dataF_loadHit fuel ns i st (dval ns i) hv1 hnc hslot hlk
      (hnz i hi)
    rw [heq]
    exact ⟨rfl, hM1, hV1, hdl1, hvl1, hdataE1, hvalidE1, hcalls1⟩

/-! ## Claim C1 -/

/-- C1 (counterexample): a pipeline consisting of one impure node is
unmodified between runs and, after the first run, both its metadata and its
value artifact are present and readable in the store; yet the second run
invokes its processor again (the `calls` log of the re-run is `[0]`, not
`[]`), contradicting the claim that re-running invokes zero user
functions. -/
theorem c1_counterexample :
    lookupS (get_dataF 1 nsImp 0 (initSt 1)).2.metas "imp" =
      some (make_meta nsImp (getNode nsImp 0)) ∧
    lookupS (get_dataF 1 nsImp 0 (initSt 1)).2.vals "imp" =
      some (Val.vint 9) ∧
    (get_dataF 1 nsImp 0
      (resetSt 1 (get_dataF 1 nsImp 0 (initSt 1)).2)).2.calls = [0] := by
  refine ⟨?_, ?_, ?_⟩ <;> decide

/-- C1 (amended): re-running an unmodified pipeline in which every node is
cacheable (neither impure nor `no_caching`) and no node's value is `None`
invokes zero user processor functions and returns a value identical to the
prior run's result, served entirely from the store. -/
theorem c1_rerun_served_from_store (ns : List ProcessorNode) (fuel : Nat)
    (hwf : WFdeps ns) (hdist : distinctNames ns) (hcache : allCacheable ns)
    (hnz : nonNoneVals ns) (hne : ns ≠ []) (hfuel : ns.length ≤ fuel) :
    (get_dataF fuel ns (ns.length - 1)
        (resetSt ns.length
          (get_dataF fuel ns (ns.length - 1) (initSt ns.length)).2)).1 =
      (get_dataF fuel ns (ns.length - 1) (initSt ns.length)).1 ∧
    (get_dataF fuel ns (ns.length - 1)
        (resetSt ns.length
          (get_dataF fuel ns (ns.length - 1) (initSt ns.length)).2)).2.calls =
      [] := by
  have hlen : 0 < ns.length := List.length_pos.mpr hne
  have hsink : ns.length - 1 < ns.length := by omega
  have hf : ns.length - 1 + 1 ≤ fuel := by omega
  have h1 := getData_run1 ns hwf hdist hcache hnz fuel (ns.length - 1)
    (initSt ns.length) hf hsink (Inv1_init ns)
  obtain ⟨h11, h12, h13, _, _, _⟩ := h1
  obtain ⟨d1, d2, dA, dB, dC, dD⟩ := h12
  have hready : ReadySet ns
      (fun k => getData (get_dataF fuel ns (ns.length - 1)
        (initSt ns.length)).2 k ≠ Val.vnone)
      (get_dataF fuel ns (ns.length - 1) (initSt ns.length)).2.metas
      (get_dataF fuel ns (ns.length - 1) (initSt ns.length)).2.vals := by
    intro k hPk
    have hk : k < ns.length := by
      by_contra hge
      apply hPk
      simp only [getData]
      exact getD_ge _ k Val.vnone (by rw [d1]; omega)
    rcases dD k hk with h | ⟨_, hmm, hvv, hhd⟩
    · exact absurd h hPk
    · exact ⟨hk, hmm, hvv, fun j hj => hhd j hj⟩
  have hPsink : getData (get_dataF fuel ns (ns.length - 1)
      (initSt ns.length)).2 (ns.length - 1) ≠ Val.vnone := by
    rw [h13]; exact hnz (ns.length - 1) hsink
  have hinv2 : Inv2 ns
      (fun k => getData (get_dataF fuel ns (ns.length - 1)
        (initSt ns.length)).2 k ≠ Val.vnone)
      (get_dataF fuel ns (ns.length - 1) (initSt ns.length)).2.metas
      (get_dataF fuel ns (ns.length - 1) (initSt ns.length)).2.vals
      (resetSt ns.length
        (get_dataF fuel ns (ns.length - 1) (initSt ns.length)).2) := by
    refine ⟨rfl, rfl, by simp [resetSt], by simp [resetSt], ?_, ?_, rfl⟩
    · intro k hk
      simp only [getData, resetSt]
      exact getD_replicate_lt ns.length k Val.vnone Val.vnone hk
    · intro k hk
      left
      simp only [getValid, resetSt]
      exact getD_replicate_lt ns.length k none none hk
  have h2 := getData_run2 ns hwf hcache hnz _ _ _ hready fuel
    (ns.length - 1) _ hf hPsink hinv2
  obtain ⟨h21, h22⟩ := h2
  exact ⟨by rw [h21, h11], h22.2.2.2.2.2.2⟩

/-- C1 (witness): the amended theorem applied to a concrete two-node
cacheable chain. -/
theorem c1_witness :
    (get_dataF 2 nsW1 1 (resetSt 2 (get_dataF 2 nsW1 1 (initSt 2)).2)).1 =
      (get_dataF 2 nsW1 1 (initSt 2)).1 ∧
    (get_dataF 2 nsW1 1
      (resetSt 2 (get_dataF 2 nsW1 1 (initSt 2)).2)).2.calls = [] :=
  c1_rerun_served_from_store nsW1 2 (by decide) (by decide) (by decide)
    (by decide) (by simp [nsW1]) (by decide)

/-! ## Claim C2 -/

/-- C2: for every node and state, `node_valid` reports an impure node
invalid regardless of any fingerprint match (first conjunct); and when the
node's memo is unset and the dependency loop reports an invalid dependency,
the node is reported invalid without its own persisted metadata being
consulted — no metadata read is logged beyond those of the dependency loop,
so the outcome is independent of the node's own fingerprint (second
conjunct).  The memo guard mirrors the source's rule order (impure, memo,
dependencies, own metadata). -/
theorem c2_impure_and_propagation (ns : List ProcessorNode) :
    (∀ fuel i st, (getNode ns i).impure = true →
      (node_validF fuel ns i st).1 = false) ∧
    (∀ fuel i st, (getNode ns i).impure = false → getValid st i = none →
      (depsValidAux (node_validF fuel ns) (getNode ns i).dependencies st).1 =
        false →
      (node_validF (fuel + 1) ns i st).1 = false ∧
      (node_validF (fuel + 1) ns i st).2.mloads =
        (depsValidAux (node_validF fuel ns)
          (getNode ns i).dependencies st).2.mloads) := by
  constructor
  · intro fuel i st himp
    cases fuel with
    | zero => rfl
    | succ f => rw [node_validF_impure f ns i st himp]
  · intro fuel i st himp hm hd
    rw [node_validF_depsFalse fuel ns i st himp hm hd]
    exact ⟨rfl, rfl⟩

/-- C2 (witness): the theorem applied to the impure one-node arena and to a
two-node chain whose dependency is invalid over an empty store. -/
theorem c2_witness :
    (node_validF 1 nsImp 0 (initSt 1)).1 = false ∧
    ((node_validF 2 nsW1 1 (initSt 2)).1 = false ∧
     (node_validF 2 nsW1 1 (initSt 2)).2.mloads =
       (depsValidAux (node_validF 1 nsW1)
         (getNode nsW1 1).dependencies (initSt 2)).2.mloads) :=
  ⟨(c2_impure_and_propagation nsImp).1 1 0 (initSt 1) (by decide),
   (c2_impure_and_propagation nsW1).2 1 1 (initSt 2) (by decide) (by decide)
     (by decide)⟩

/-! ## Claim C3 -/

/-- C3: contrary to the claim (and to the `impure` docstring, which says the
output of an impure processor is not cached), `gen_and_cache` checks only
`no_caching` before writing the value record, so evaluating an impure,
non-`no_caching` node persists its value artifact.  The metadata record is
also written, as claimed. -/
theorem c3_impure_value_persisted :
    (getNode nsImp 0).impure = true ∧
    (getNode nsImp 0).no_caching = false ∧
    lookupS (gen_and_cacheF 1 nsImp 0 (initSt 1)).2.metas "imp" =
      some (make_meta nsImp (getNode nsImp 0)) ∧
    lookupS (gen_and_cacheF 1 nsImp 0 (initSt 1)).2.vals "imp" =
      some (Val.vint 9) := by
  refine ⟨?_, ?_, ?_, ?_⟩ <;> decide

/-! ## Claim C4 -/

/-- C4 (counterexample): a valid cacheable node with an empty slot and a
persisted value `7`: `get_data` returns `7` from disk but leaves the
in-memory slot empty, and a second demand in the same run reads the store
again (two entries in the value-load log), contradicting the claim that the
load populates the slot and prevents a redundant store read. -/
theorem c4_counterexample :
    (get_dataF 1 nsC4 0 stC4).1 = Val.vint 7 ∧
    (get_dataF 1 nsC4 0 stC4).2.data = [Val.vnone] ∧
    (get_dataF 1 nsC4 0 (get_dataF 1 nsC4 0 stC4).2).2.loads = [0, 0] := by
  refine ⟨?_, ?_, ?_⟩ <;> decide

/-- C4 (amended): when the node is valid (memoized `true`) and cacheable,
its slot is empty, and the persisted value loads as a non-`None` value, the
value is returned directly and the in-memory slot is NOT populated; a second
demand of the same node in the same run performs another store read. -/
theorem c4_load_path_skips_slot (fuel : Nat) (ns : List ProcessorNode)
    (i : Nat) (st : St) (v : Val)
    (himp : (getNode ns i).impure = false)
    (hnc : (getNode ns i).no_caching = false)
    (hm : getValid st i = some true)
    (hslot : getData st i = Val.vnone)
    (hlk : lookupS st.vals (getNode ns i).name = some v)
    (hv : v ≠ Val.vnone) :
    get_dataF (fuel + 1) ns i st = (v, { st with loads := st.loads ++ [i] }) ∧
    getData (get_dataF (fuel + 1) ns i st).2 i = Val.vnone ∧
    (get_dataF (fuel + 1) ns i
      (get_dataF (fuel + 1) ns i st).2).2.loads = st.loads ++ [i, i] := by
  have hnv : node_validF (fuel + 1) ns i st = (true, st) :=
    node_validF_memo fuel ns i st true himp hm
  have heq : get_dataF (fuel + 1) ns i st =
      (v, { st with loads := st.loads ++ [i] }) := by
    have h := get_dataF_loadHit fuel ns i st v (by rw [hnv])
      hnc (by rw [hnv]; exact hslot) (by rw [hnv]; exact hlk) hv
    rw [hnv] at h
    exact h
  set st' : St := { st with loads := st.loads ++ [i] } with hst'
  have hm' : getValid st' i = some true := hm
  have hslot' : getData st' i = Val.vnone := hslot
  have hlk' : lookupS st'.vals (getNode ns i).name = some v := hlk
  have hnv' : node_validF (fuel + 1) ns i st' = (true, st') :=
    node_validF_memo fuel ns i st' true himp hm'
  have heq' : get_dataF (fuel + 1) ns i st' =
      (v, { st' with loads := st'.loads ++ [i] }) := by
    have h := get_dataF_loadHit fuel ns i st' v (by rw [hnv'])
      hnc (by rw [hnv']; exact hslot') (by rw [hnv']; exact hlk') hv
    rw [hnv'] at h
    exact h
  refine ⟨heq, ?_, ?_⟩
  · rw [heq]
    exact hslot
  · rw [heq, heq']
    simp

/-- C4 (witness): the amended theorem applied to a one-node arena with a
matching store and the memo set `true`. -/
theorem c4_witness :
    get_dataF 1 nsC4 0 stC4v =
      (Val.vint 7, { stC4v with loads := stC4v.loads ++ [0] }) ∧
    getData (get_dataF 1 nsC4 0 stC4v).2 0 = Val.vnone ∧
    (get_dataF 1 nsC4 0 (get_dataF 1 nsC4 0 stC4v).2).2.loads =
      stC4v.loads ++ [0, 0] :=
  c4_load_path_skips_slot 0 nsC4 0 stC4v (Val.vint 7) (by decide) (by decide)
    (by decide) (by decide) (by decide) (by decide)

/-! ## Lemmas about graph construction -/

theorem exc_bind_ok {ε α β : Type} (a : α) (f : α → Except ε β) :
    (Except.ok a >>= f) = f a := rfl

theorem exc_bind_err {ε α β : Type} (e : ε) (f : α → Except ε β) :
    ((Except.error e : Except ε α) >>= f) = Except.error e := rfl

theorem exc_pure {ε α : Type} (a : α) : (pure a : Except ε α) = Except.ok a :=
  rfl

/-- Resolving a reference list never fails when nodes already exist, or when
the previous-node marker does not occur. -/
theorem buildDeps_ok (ns0 : List ProcessorNode) :
    ∀ refs : List DepRef,
      (ns0 ≠ [] ∨ DepRef.byInt (-1) ∉ refs) →
      ∃ ds, buildDeps ns0 refs = Except.ok ds := by
  intro refs
  induction refs with
  | nil => intro _; exact ⟨[], rfl⟩
  | cons r rest ihr =>
    intro h
    have hrest : ns0 ≠ [] ∨ DepRef.byInt (-1) ∉ rest := by
      rcases h with h | h
      · exact Or.inl h
      · exact Or.inr (fun hc => h (by simp [hc]))
    obtain ⟨ds, hds⟩ := ihr hrest
    have hres : ∃ o, resolveRef ns0 r = Except.ok o := by
      cases r with
      | byName s => exact ⟨findNameIdx ns0 s, rfl⟩
      | badShape => exact ⟨none, rfl⟩
      | byInt n =>
        by_cases hn : n = -1
        · subst hn
          rcases h with h | h
          · cases hns : ns0 with
            | nil => exact absurd hns h
            | cons a t =>
              refine ⟨some t.length, ?_⟩
              simp [resolveRef, hns]
          · exact absurd (by simp) h
        · exact ⟨none, by simp [resolveRef, hn]⟩
    obtain ⟨o, ho⟩ := hres
    cases o with
    | none => exact ⟨ds, by simp [buildDeps, ho, exc_bind_ok, exc_pure, hds]⟩
    | some j =>
      exact ⟨j :: ds, by simp [buildDeps, ho, exc_bind_ok, exc_pure, hds]⟩

/-- One construction step never fails when nodes already exist, or when the
descriptor cannot reach the previous-node marker; the node list grows by
one. -/
theorem buildStep_ok (ns0 : List ProcessorNode) (p : Proc)
    (h : ns0 ≠ [] ∨ ∀ l, p.dependencies = some l → DepRef.byInt (-1) ∉ l) :
    ∃ deps, buildStep ns0 p =
      Except.ok (ns0 ++
        [(⟨p.processor, p.args, get_node_name p, p.impure, p.no_caching,
          deps, p.calls⟩ : ProcessorNode)]) := by
  cases hdep : p.dependencies with
  | none =>
    refine ⟨(match ns0.length with | 0 => [] | m + 1 => [m]), ?_⟩
    simp [buildStep, hdep, exc_pure, exc_bind_ok]
  | some refs =>
    have hd : ns0 ≠ [] ∨ DepRef.byInt (-1) ∉ refs := by
      rcases h with h | h
      · exact Or.inl h
      · exact Or.inr (h refs hdep)
    obtain ⟨ds, hds⟩ := buildDeps_ok ns0 refs hd
    exact ⟨ds, by simp [buildStep, hdep, hds, exc_bind_ok, exc_pure]⟩

/-- The construction loop never fails once at least one node exists. -/
theorem buildNodes_ok :
    ∀ (rest : List Proc) (ns0 : List ProcessorNode), ns0 ≠ [] →
      ∃ ns', buildNodes ns0 rest = Except.ok ns' ∧ ns' ≠ [] := by
  intro rest
  induction rest with
  | nil => intro ns0 h; exact ⟨ns0, rfl, h⟩
  | cons q qs ihq =>
    intro ns0 h
    obtain ⟨deps, hstep⟩ := buildStep_ok ns0 q (Or.inl h)
    obtain ⟨ns', hns', hne'⟩ := ihq
      (ns0 ++ [⟨q.processor, q.args, get_node_name q, q.impure, q.no_caching,
        deps, q.calls⟩]) (by simp)
    exact ⟨ns', by simp [buildNodes, hstep, exc_bind_ok, hns'], hne'⟩

/-! ## Claim C5 -/

/-- C5 (counterexample): a pipeline whose second descriptor references the
unknown dependency name "nope" is constructed successfully — no abort; the
node is built with the unresolved dependency skipped (its dependency list is
empty) after a printed warning. -/
theorem c5_counterexample :
    (make_pipeline_tree [procSeven, procUnknownDep]).toOption.map
      (fun pr => (getNode pr.1 1).dependencies) = some [] := by
  decide

/-- C5 (amended): graph construction never aborts on an unknown name
reference, a non-string non-int reference shape, or an int other than `-1`:
it prints a warning and continues with that dependency skipped.  It aborts
(an `IndexError`) only when the pipeline is empty or its first descriptor
uses the previous-node marker `-1`: any nonempty pipeline whose first
descriptor does not contain the marker constructs successfully. -/
theorem c5_no_abort (p : Proc) (rest : List Proc)
    (hfirst : ∀ l, p.dependencies = some l → DepRef.byInt (-1) ∉ l) :
    ∃ r, make_pipeline_tree (p :: rest) = Except.ok r := by
  obtain ⟨deps, hstep⟩ := buildStep_ok [] p (Or.inr hfirst)
  obtain ⟨ns', hns', hne'⟩ := buildNodes_ok rest
    ([] ++ [⟨p.processor, p.args, get_node_name p, p.impure, p.no_caching,
      deps, p.calls⟩]) (by simp)
  cases hlen : ns'.length with
  | zero => exact absurd (List.length_eq_zero.mp hlen) hne'
  | succ m =>
    refine ⟨(ns', m), ?_⟩
    simp only [make_pipeline_tree, buildNodes, hstep, exc_bind_ok,
      List.nil_append] at hns' ⊢
    rw [hns', exc_bind_ok, hlen]
    rfl

/-- C5 (witness): the amended theorem applied to the pipeline of the
counterexample (unknown dependency name in the second descriptor). -/
theorem c5_witness :
    ∃ r, make_pipeline_tree [procSeven, procUnknownDep] = Except.ok r :=
  c5_no_abort procSeven [procUnknownDep]
    (fun _ h => Option.noConfusion h)

/-! ## Claim C6 -/

/-- C6 (counterexample): in `nsC6` the dependency node (index 0) declares an
auxiliary function; the dependent's persisted metadata holds the hash of the
dependency's processor alone, which differs from the dependency's
own-fingerprint (which covers its auxiliary functions), refuting the claim
that the stored list consists of dependency own-fingerprints. -/
theorem c6_counterexample :
    (make_meta nsC6 (getNode nsC6 1)).dep_hashes ≠
      (getNode nsC6 1).dependencies.map
        (fun j => own_fingerprint (getNode nsC6 j)) := by
  decide

/-- C6 (amended): the persisted metadata record consists of the node's
own-fingerprint (over its function and its auxiliary functions, in fixed
order), the list — in declared order — of the hash of each direct
dependency's processor function alone (NOT covering that dependency's
auxiliary functions), and the node's argument values. -/
theorem c6_meta_shape (ns : List ProcessorNode) (node : ProcessorNode) :
    make_meta ns node =
      { src_hash := own_fingerprint node
        dep_hashes := node.dependencies.map
          (fun j => functions_hash [(getNode ns j).processor])
        pos_args := node.args } := rfl

/-! ## Claim C7 -/

/-- The construction loop splits along list concatenation. -/
theorem buildNodes_split :
    ∀ (xs : List Proc) (ns0 : List ProcessorNode) (ys : List Proc)
      (ns' : List ProcessorNode),
      buildNodes ns0 (xs ++ ys) = Except.ok ns' →
      ∃ ns1, buildNodes ns0 xs = Except.ok ns1 ∧
        buildNodes ns1 ys = Except.ok ns' := by
  intro xs
  induction xs with
  | nil => intro ns0 ys ns' h; exact ⟨ns0, rfl, h⟩
  | cons x t ih =>
    intro ns0 ys ns' h
    cases hstep : buildStep ns0 x with
    | error e =>
      rw [List.cons_append] at h
      simp [buildNodes, hstep, exc_bind_err] at h
    | ok ns1 =>
      rw [List.cons_append] at h
      rw [show buildNodes ns0 (x :: (t ++ ys)) =
        buildStep ns0 x >>= fun a => buildNodes a (t ++ ys) from rfl,
        hstep, exc_bind_ok] at h
      obtain ⟨ns2, h1, h2⟩ := ih ns1 ys ns' h
      exact ⟨ns2, by
        rw [show buildNodes ns0 (x :: t) =
          buildStep ns0 x >>= fun a => buildNodes a t from rfl, hstep,
          exc_bind_ok]
        exact h1, h2⟩

/-- A successful construction step appends exactly one node. -/
theorem buildStep_shape (ns0 : List ProcessorNode) (p : Proc)
    (ns1 : List ProcessorNode) (h : buildStep ns0 p = Except.ok ns1) :
    ∃ node, ns1 = ns0 ++ [node] := by
  cases hdep : p.dependencies with
  | none =>
    rw [show buildStep ns0 p = Except.ok (ns0 ++
      [(⟨p.processor, p.args, get_node_name p, p.impure, p.no_caching,
        (match ns0.length with | 0 => [] | m + 1 => [m]), p.calls⟩ :
        ProcessorNode)]) from by simp [buildStep, hdep, exc_pure, exc_bind_ok]]
      at h
    exact ⟨_, (Except.ok.inj h).symm⟩
  | some refs =>
    cases hds : buildDeps ns0 refs with
    | error e => simp [buildStep, hdep, hds, exc_bind_err] at h
    | ok ds =>
      rw [show buildStep ns0 p = Except.ok (ns0 ++
        [(⟨p.processor, p.args, get_node_name p, p.impure, p.no_caching, ds,
          p.calls⟩ : ProcessorNode)]) from by
          simp [buildStep, hdep, hds, exc_bind_ok, exc_pure]] at h
      exact ⟨_, (Except.ok.inj h).symm⟩

/-- The construction loop adds one node per descriptor. -/
theorem buildNodes_length :
    ∀ (ps : List Proc) (ns0 ns' : List ProcessorNode),
      buildNodes ns0 ps = Except.ok ns' →
      ns'.length = ns0.length + ps.length := by
  intro ps
  induction ps with
  | nil => intro ns0 ns' h; rw [← Except.ok.inj h]; rfl
  | cons p t ih =>
    intro ns0 ns' h
    cases hstep : buildStep ns0 p with
    | error e => simp [buildNodes, hstep, exc_bind_err] at h
    | ok ns1 =>
      rw [show buildNodes ns0 (p :: t) =
        buildStep ns0 p >>= fun a => buildNodes a t from rfl, hstep,
        exc_bind_ok] at h
      obtain ⟨node, hshape⟩ := buildStep_shape ns0 p ns1 hstep
      have := ih ns1 ns' h
      rw [this, hshape]
      simp
      omega

/-- Already-built nodes are unchanged by the rest of the construction
loop. -/
theorem buildNodes_stable :
    ∀ (ps : List Proc) (ns0 ns' : List ProcessorNode),
      buildNodes ns0 ps = Except.ok ns' →
      ∀ k, k < ns0.length → getNode ns' k = getNode ns0 k := by
  intro ps
  induction ps with
  | nil => intro ns0 ns' h k _; rw [← Except.ok.inj h]
  | cons p t ih =>
    intro ns0 ns' h k hk
    cases hstep : buildStep ns0 p with
    | error e => simp [buildNodes, hstep, exc_bind_err] at h
    | ok ns1 =>
      rw [show buildNodes ns0 (p :: t) =
        buildStep ns0 p >>= fun a => buildNodes a t from rfl, hstep,
        exc_bind_ok] at h
      obtain ⟨node, hshape⟩ := buildStep_shape ns0 p ns1 hstep
      have hk1 : k < ns1.length := by rw [hshape]; simp; omega
      rw [ih ns1 ns' h k hk1, hshape]
      simp only [getNode]
      exact getD_append_lt ns0 [node] k default hk

/-- C7: in any successfully constructed pipeline, a descriptor whose
dependency field is omitted and that is not the first gets exactly one
dependency — the node built immediately before it; a descriptor with an
explicit empty dependency list gets no dependencies regardless of
position. -/
theorem c7_omitted_and_empty_dependencies (pre post : List Proc) (p : Proc)
    (ns : List ProcessorNode) (sink : Nat)
    (hok : make_pipeline_tree (pre ++ p :: post) = Except.ok (ns, sink)) :
    (p.dependencies = none → pre ≠ [] →
      (getNode ns pre.length).dependencies = [pre.length - 1]) ∧
    (p.dependencies = some [] →
      (getNode ns pre.length).dependencies = []) := by
  cases hbn : buildNodes [] (pre ++ p :: post) with
  | error e =>
    rw [show make_pipeline_tree (pre ++ p :: post) =
      buildNodes [] (pre ++ p :: post) >>= fun a =>
        (match a.length with
         | 0 => Except.error PipeError.indexError
         | m + 1 => pure (a, m)) from rfl, hbn, exc_bind_err] at hok
    cases hok
  | ok nall =>
    rw [show make_pipeline_tree (pre ++ p :: post) =
      buildNodes [] (pre ++ p :: post) >>= fun a =>
        (match a.length with
         | 0 => Except.error PipeError.indexError
         | m + 1 => pure (a, m)) from rfl, hbn, exc_bind_ok] at hok
    have hns : nall = ns := by
      cases hlen : nall.length with
      | zero => rw [hlen] at hok; cases hok
      | succ m =>
        rw [hlen] at hok
        exact (Prod.mk.inj (Except.ok.inj hok)).1
    subst hns
    obtain ⟨ns1, h1, h2⟩ := buildNodes_split pre [] (p :: post) nall hbn
    have hlen1 : ns1.length = pre.length := by
      have := buildNodes_length pre [] ns1 h1
      simpa using this
    cases hstep : buildStep ns1 p with
    | error e =>
      rw [show buildNodes ns1 (p :: post) =
        buildStep ns1 p >>= fun a => buildNodes a post from rfl, hstep,
        exc_bind_err] at h2
      cases h2
    | ok ns2 =>
      rw [show buildNodes ns1 (p :: post) =
        buildStep ns1 p >>= fun a => buildNodes a post from rfl, hstep,
        exc_bind_ok] at h2
      constructor
      · intro hdep hpre
        have hstep' : buildStep ns1 p = Except.ok (ns1 ++
            [(⟨p.processor, p.args, get_node_name p, p.impure, p.no_caching,
              (match ns1.length with | 0 => [] | m + 1 => [m]), p.calls⟩ :
              ProcessorNode)]) := by
          simp [buildStep, hdep, exc_pure, exc_bind_ok]
        have hns2 : ns2 = ns1 ++
            [(⟨p.processor, p.args, get_node_name p, p.impure, p.no_caching,
              (match ns1.length with | 0 => [] | m + 1 => [m]), p.calls⟩ :
              ProcessorNode)] :=
          Except.ok.inj (hstep.symm.trans hstep')
        have hk2 : pre.length < ns2.length := by rw [hns2]; simp; omega
        rw [buildNodes_stable post ns2 nall h2 pre.length hk2, hns2]
        simp only [getNode]
        rw [← hlen1, getD_append_self]
        cases hp : pre with
        | nil => exact absurd hp hpre
        | cons a t =>
          rw [hlen1, hp]
          simp
      · intro hdep
        have hstep' : buildStep ns1 p = Except.ok (ns1 ++
            [(⟨p.processor, p.args, get_node_name p, p.impure, p.no_caching,
              [], p.calls⟩ : ProcessorNode)]) := by
          simp [buildStep, hdep, buildDeps, exc_pure, exc_bind_ok]
        have hns2 : ns2 = ns1 ++
            [(⟨p.processor, p.args, get_node_name p, p.impure, p.no_caching,
              [], p.calls⟩ : ProcessorNode)] :=
          Except.ok.inj (hstep.symm.trans hstep')
        have hk2 : pre.length < ns2.length := by rw [hns2]; simp; omega
        rw [buildNodes_stable post ns2 nall h2 pre.length hk2, hns2]
        simp only [getNode]
        rw [← hlen1, getD_append_self]

/-- C7 (witness): the theorem applied to two concrete two-descriptor
pipelines, one with the dependency field omitted, one with an explicit empty
list. -/
theorem c7_witness :
    (getNode ns7a 1).dependencies = [0] ∧
    (getNode ns7b 1).dependencies = [] := by
  constructor
  · exact (c7_omitted_and_empty_dependencies [procSeven] [] procOmitted ns7a 1
      rfl).1 rfl (by simp)
  · exact (c7_omitted_and_empty_dependencies [procSeven] [] procEmptyDeps ns7b
      1 rfl).2 rfl

/-! ## Claim C10 -/

/-- Resolving a reference list that contains the previous-node marker
against an empty node list raises the `IndexError` of `nodes[-1]`. -/
theorem buildDeps_sentinel_err :
    ∀ l : List DepRef, DepRef.byInt (-1) ∈ l →
      buildDeps [] l = Except.error PipeError.indexError := by
  intro l
  induction l with
  | nil => intro h; cases h
  | cons r rest ih =>
    intro h
    by_cases hr : r = DepRef.byInt (-1)
    · subst hr
      simp [buildDeps, resolveRef, exc_bind_err]
    · have hmem : DepRef.byInt (-1) ∈ rest := by
        rcases List.mem_cons.mp h with h' | h'
        · exact absurd h'.symm hr
        · exact h'
      have hres : ∃ o, resolveRef [] r = Except.ok o := by
        cases r with
        | byName s => exact ⟨none, rfl⟩
        | badShape => exact ⟨none, rfl⟩
        | byInt n =>
          have hn : n ≠ -1 := fun hc => hr (by rw [hc])
          exact ⟨none, by simp [resolveRef, hn]⟩
      obtain ⟨o, ho⟩ := hres
      simp [buildDeps, ho, exc_bind_ok, exc_bind_err, ih hmem]

/-- C10: graph construction of an empty pipeline does not return a sink: it
fails with the `IndexError` of `nodes[-1]` on an empty list; and a first
descriptor whose dependency list contains the previous-node marker indexes
into the empty node list and fails with the same error. -/
theorem c10_empty_and_first_sentinel_fail :
    make_pipeline_tree ([] : List Proc) =
      Except.error PipeError.indexError ∧
    (∀ (p : Proc) (rest : List Proc) (l : List DepRef),
      p.dependencies = some l → DepRef.byInt (-1) ∈ l →
      make_pipeline_tree (p :: rest) =
        Except.error PipeError.indexError) := by
  constructor
  · rfl
  · intro p rest l hdep hmem
    have herr := buildDeps_sentinel_err l hmem
    have hstep : buildStep [] p = Except.error PipeError.indexError := by
      simp [buildStep, hdep, herr, exc_bind_err]
    rw [show make_pipeline_tree (p :: rest) =
      buildNodes [] (p :: rest) >>= fun a =>
        (match a.length with
         | 0 => Except.error PipeError.indexError
         | m + 1 => pure (a, m)) from rfl,
      show buildNodes [] (p :: rest) =
        buildStep [] p >>= fun a => buildNodes a rest from rfl,
      hstep, exc_bind_err, exc_bind_err]

/-- C10 (witness): the theorem applied to a one-descriptor pipeline whose
dependency list is `[-1]`. -/
theorem c10_witness :
    make_pipeline_tree [procPrevFirst] =
      Except.error PipeError.indexError :=
  c10_empty_and_first_sentinel_fail.2 procPrevFirst [] [DepRef.byInt (-1)]
    rfl (by simp)

/-! ## Claim C8 -/

/-- The value, invocation log, and data slots of `gen_and_cache`, valid for
both the caching and the `no_caching` branch. -/
theorem gen_and_cacheAux_fields (g : Nat → St → Val × St)
    (ns : List ProcessorNode) (i : Nat) (stB : St) :
    (gen_and_cacheAux g ns i stB).1 =
      run_processor (getNode ns i).processor (getNode ns i).args
        (getInputsAux g (getNode ns i).dependencies stB).1 ∧
    (gen_and_cacheAux g ns i stB).2.calls =
      (getInputsAux g (getNode ns i).dependencies stB).2.calls ++ [i] ∧
    (gen_and_cacheAux g ns i stB).2.data =
      (getInputsAux g (getNode ns i).dependencies stB).2.data := by
  cases hnc : (getNode ns i).no_caching with
  | true => rw [gen_and_cacheAux_nc g ns i stB hnc]; exact ⟨rfl, rfl, rfl⟩
  | false => rw [gen_and_cacheAux_cache g ns i stB hnc]; exact ⟨rfl, rfl, rfl⟩

/-- The value store after `gen_and_cache`: unchanged under `no_caching`,
otherwise the computed value is written under the node's name. -/
theorem gen_and_cacheAux_vals (g : Nat → St → Val × St)
    (ns : List ProcessorNode) (i : Nat) (stB : St) :
    (gen_and_cacheAux g ns i stB).2.vals =
      (if (getNode ns i).no_caching = true
       then (getInputsAux g (getNode ns i).dependencies stB).2.vals
       else setS (getInputsAux g (getNode ns i).dependencies stB).2.vals
         (getNode ns i).name
         (run_processor (getNode ns i).processor (getNode ns i).args
           (getInputsAux g (getNode ns i).dependencies stB).1)) := by
  cases hnc : (getNode ns i).no_caching with
  | true => rw [gen_and_cacheAux_nc g ns i stB hnc]; simp
  | false => rw [gen_and_cacheAux_cache g ns i stB hnc]; simp

/-- `Inv8` only inspects the `data` and `calls` fields. -/
theorem Inv8_congr (ns : List ProcessorNode) (st st' : St)
    (hd : st'.data = st.data) (hc : st'.calls = st.calls) (h : Inv8 ns st) :
    Inv8 ns st' := by
  obtain ⟨hl, hj⟩ := h
  refine ⟨by rw [hd]; exact hl, ?_⟩
  intro j
  rw [hc]
  refine ⟨(hj j).1, fun hm => ?_⟩
  rw [getData_eq_of_data st st' hd]
  exact (hj j).2 hm

/-- Core of the diamond-consistency property: over any state in which no
processor was invoked twice and every invoked node has a filled slot,
`get_data` preserves that invariant, never touches slots above the demanded
index, and leaves the demanded slot either unchanged or filled. -/
theorem getData_atMostOnce (ns : List ProcessorNode) (hwf : WFdeps ns)
    (himpl : ∀ k, k < ns.length → ∀ inputs,
      (getNode ns k).processor.impl inputs ≠ Val.vnone) :
    ∀ fuel i st, i < ns.length → Inv8 ns st →
      Inv8 ns (get_dataF fuel ns i st).2 ∧
      (∀ k, i < k → getData (get_dataF fuel ns i st).2 k = getData st k) ∧
      (getData (get_dataF fuel ns i st).2 i = getData st i ∨
        getData (get_dataF fuel ns i st).2 i ≠ Val.vnone) := by
  intro fuel
  induction fuel with
  | zero =>
    intro i st _ h8
    exact ⟨h8, fun _ _ => rfl, Or.inl rfl⟩
  | succ fuel ih =>
    intro i st hi h8
    obtain ⟨fm, fv, fd, fc, fl, fln⟩ := (node_validF_frame ns (fuel + 1)).1 i st
    have h81 : Inv8 ns (node_validF (fuel + 1) ns i st).2 :=
      Inv8_congr ns st _ fd fc h8
    have hd1 : ∀ k, getData (node_validF (fuel + 1) ns i st).2 k =
        getData st k := getData_eq_of_data st _ fd
    -- the dependency-evaluation loop preserves the invariant and the slots
    -- at or above the demanded index
    have hloop : ∀ l stq, (∀ j, j ∈ l → j < i) → Inv8 ns stq →
        Inv8 ns (getInputsAux (get_dataF fuel ns) l stq).2 ∧
        (∀ k, (∀ j, j ∈ l → j < k) →
          getData (getInputsAux (get_dataF fuel ns) l stq).2 k =
            getData stq k) := by
      intro l
      induction l with
      | nil =>
        intro stq _ hq
        rw [getInputsAux_nil]
        exact ⟨hq, fun _ _ => rfl⟩
      | cons x t ihl =>
        intro stq hmem hq
        have hxi : x < i := hmem x (by simp)
        have hx := ih x stq (Nat.lt_trans hxi hi) hq
        obtain ⟨x1, x2, _⟩ := hx
        have ht := ihl (get_dataF fuel ns x stq).2
          (fun y hy => hmem y (by simp [hy])) x1
        rw [getInputsAux_cons]
        refine ⟨ht.1, ?_⟩
        intro k hk
        rw [ht.2 k (fun j hj => hk j (by simp [hj])), x2 k (hk x (by simp))]
    -- core of the recompute branch
    have hgen : ∀ stB : St, Inv8 ns stB → getData stB i = Val.vnone →
        Inv8 ns (setData (gen_and_cacheAux (get_dataF fuel ns) ns i stB).2 i
          (gen_and_cacheAux (get_dataF fuel ns) ns i stB).1) ∧
        (∀ k, i < k →
          getData (setData (gen_and_cacheAux (get_dataF fuel ns) ns i stB).2
            i (gen_and_cacheAux (get_dataF fuel ns) ns i stB).1) k =
            getData stB k) ∧
        getData (setData (gen_and_cacheAux (get_dataF fuel ns) ns i stB).2 i
          (gen_and_cacheAux (get_dataF fuel ns) ns i stB).1) i ≠
          Val.vnone := by
      intro stB h8B hslotB
      obtain ⟨g1, g2, g3⟩ :=
        gen_and_cacheAux_fields (get_dataF fuel ns) ns i stB
      obtain ⟨hlp8, hlpd⟩ := hloop (getNode ns i).dependencies stB
        (fun j hj => hwf i hi j hj) h8B
      obtain ⟨hlen2, hcnt2⟩ := hlp8
      have hslot2 : getData (getInputsAux (get_dataF fuel ns)
          (getNode ns i).dependencies stB).2 i = Val.vnone := by
        rw [hlpd i (fun j hj => hwf i hi j hj)]
        exact hslotB
      have hnotmem : i ∉ (getInputsAux (get_dataF fuel ns)
          (getNode ns i).dependencies stB).2.calls := by
        intro hc
        exact absurd hslot2 ((hcnt2 i).2 hc)
      have hw1 : (gen_and_cacheAux (get_dataF fuel ns) ns i stB).1 ≠
          Val.vnone := by
        rw [g1]
        exact himpl i hi _
      have hilen : i <
          (gen_and_cacheAux (get_dataF fuel ns) ns i stB).2.data.length := by
        rw [g3, hlen2]; exact hi
      have hcallsF : (setData (gen_and_cacheAux (get_dataF fuel ns) ns i
          stB).2 i (gen_and_cacheAux (get_dataF fuel ns) ns i stB).1).calls =
          (getInputsAux (get_dataF fuel ns)
            (getNode ns i).dependencies stB).2.calls ++ [i] := g2
      have hFi : getData (setData (gen_and_cacheAux (get_dataF fuel ns) ns i
          stB).2 i (gen_and_cacheAux (get_dataF fuel ns) ns i stB).1) i =
          (gen_and_cacheAux (get_dataF fuel ns) ns i stB).1 :=
        getData_setData_self _ i _ hilen
      have hFne : ∀ k, k ≠ i →
          getData (setData (gen_and_cacheAux (get_dataF fuel ns) ns i stB).2
            i (gen_and_cacheAux (get_dataF fuel ns) ns i stB).1) k =
          getData (getInputsAux (get_dataF fuel ns)
            (getNode ns i).dependencies stB).2 k := by
        intro k hk
        rw [getData_setData_ne _ i k _ (fun h => hk h.symm)]
        exact getData_eq_of_data _ _ g3 k
      refine ⟨⟨?_, ?_⟩, ?_, ?_⟩
      · simp only [setData, List.length_set]
        rw [g3]; exact hlen2
      · intro j
        rw [hcallsF, List.count_append]
        by_cases hj : j = i
        · subst hj
          rw [List.count_eq_zero.mpr hnotmem]
          refine ⟨by simp, fun _ => ?_⟩
          rw [hFi]
          exact hw1
        · have hc0 : List.count j [i] = 0 :=
            List.count_eq_zero.mpr (by simp [hj])
          rw [hc0]
          refine ⟨by simpa using (hcnt2 j).1, fun hm => ?_⟩
          have hm' : j ∈ (getInputsAux (get_dataF fuel ns)
              (getNode ns i).dependencies stB).2.calls := by
            rcases List.mem_append.mp hm with h | h
            · exact h
            · exact absurd (by simpa using h) hj
          rw [hFne j hj]
          exact (hcnt2 j).2 hm'
      · intro k hk
        rw [hFne k (by omega), hlpd k
          (fun j hj => Nat.lt_trans (hwf i hi j hj) hk)]
      · rw [hFi]; exact hw1
    -- branch on the shape of `get_data`
    by_cases hslot : getData (node_validF (fuel + 1) ns i st).2 i = Val.vnone
    · cases hr : (node_validF (fuel + 1) ns i st).1 with
      | false =>
        rw [get_dataF_genInvalid fuel ns i st hr hslot]
        obtain ⟨a1, a2, a3⟩ := hgen (node_validF (fuel + 1) ns i st).2 h81
          hslot
        refine ⟨a1, ?_, Or.inr a3⟩
        intro k hk
        rw [a2 k hk, hd1 k]
      | true =>
        cases hnc : (getNode ns i).no_caching with
        | true =>
          rw [get_dataF_genNoCaching fuel ns i st hnc hslot]
          obtain ⟨a1, a2, a3⟩ := hgen (node_validF (fuel + 1) ns i st).2 h81
            hslot
          refine ⟨a1, ?_, Or.inr a3⟩
          intro k hk
          rw [a2 k hk, hd1 k]
        | false =>
          cases hlk : lookupS (node_validF (fuel + 1) ns i st).2.vals
              (getNode ns i).name with
          | none =>
            rw [get_dataF_loadMissGen fuel ns i st hr hnc hslot hlk]
            have h8l : Inv8 ns ({ (node_validF (fuel + 1) ns i st).2 with
                loads := (node_validF (fuel + 1) ns i st).2.loads ++ [i] } :
                St) := Inv8_congr ns _ _ rfl rfl h81
            obtain ⟨a1, a2, a3⟩ := hgen _ h8l hslot
            refine ⟨a1, ?_, Or.inr a3⟩
            intro k hk
            rw [a2 k hk]
            exact hd1 k
          | some v =>
            by_cases hv : v = Val.vnone
            · subst hv
              rw [get_dataF_loadNoneGen fuel ns i st hr hnc hslot hlk]
              have h8l : Inv8 ns ({ (node_validF (fuel + 1) ns i st).2 with
                  loads := (node_validF (fuel + 1) ns i st).2.loads ++ [i] } :
                  St) := Inv8_congr ns _ _ rfl rfl h81
              obtain ⟨a1, a2, a3⟩ := hgen _ h8l hslot
              refine ⟨a1, ?_, Or.inr a3⟩
              intro k hk
              rw [a2 k hk]
              exact hd1 k
            · rw [get_dataF_loadHit fuel ns i st v hr hnc hslot hlk hv]
              refine ⟨Inv8_congr ns st _ fd fc h8, ?_, Or.inl (hd1 i)⟩
              intro k _
              exact hd1 k
    · rw [get_dataF_slotHit fuel ns i st hslot]
      exact ⟨h81, fun k _ => hd1 k, Or.inl (hd1 i)⟩

/-- C8 (counterexample): in the diamond `nsC8` the shared ancestor (index 0,
a dependency of both downstream nodes) returns `None`; within the single run
`evaluate(sink)` its processor is invoked twice, refuting at-most-once as
stated. -/
theorem c8_counterexample :
    (getNode nsC8 2).dependencies = [0, 1] ∧
    (getNode nsC8 1).dependencies = [0] ∧
    ((get_dataF 3 nsC8 2 (initSt 3)).2.calls.count 0) = 2 := by
  refine ⟨?_, ?_, ?_⟩ <;> decide

/-- C8 (amended): within one run of `evaluate(sink)` started on fresh
per-run slots over an arbitrary store, every node's processor is invoked at
most once — including nodes shared by several downstream dependents —
provided no processor can return `None`. -/
theorem c8_at_most_once (ns : List ProcessorNode) (fuel sinkIdx : Nat)
    (M : List (String × Meta)) (V : List (String × Val)) (hwf : WFdeps ns)
    (himpl : ∀ k, k < ns.length → ∀ inputs,
      (getNode ns k).processor.impl inputs ≠ Val.vnone)
    (hsink : sinkIdx < ns.length) (k : Nat) :
    ((get_dataF fuel ns sinkIdx (mkRunSt ns.length M V)).2.calls.count k) ≤
      1 := by
  have h8 : Inv8 ns (mkRunSt ns.length M V) := by
    refine ⟨by simp [mkRunSt], ?_⟩
    intro j
    constructor
    · simp [mkRunSt]
    · intro hm
      simp [mkRunSt] at hm
  have h := getData_atMostOnce ns hwf himpl fuel sinkIdx
    (mkRunSt ns.length M V) hsink h8
  exact (h.1.2 k).1

/-- C8 (witness): the amended theorem applied to the two-node chain over an
empty store, at both node indices. -/
theorem c8_witness :
    ((get_dataF 2 nsW1 1 (mkRunSt 2 [] [])).2.calls.count 0) ≤ 1 ∧
    ((get_dataF 2 nsW1 1 (mkRunSt 2 [] [])).2.calls.count 1) ≤ 1 :=
  ⟨c8_at_most_once nsW1 2 1 [] [] (by decide)
      (by
        intro k hk inputs
        have hk2 : k < 2 := hk
        interval_cases k <;> simp [nsW1, getNode, sevenFn, doubleFn])
      (by decide) 0,
   c8_at_most_once nsW1 2 1 [] [] (by decide)
      (by
        intro k hk inputs
        have hk2 : k < 2 := hk
        interval_cases k <;> simp [nsW1, getNode, sevenFn, doubleFn])
      (by decide) 1⟩

/-! ## Claim C9 -/

/-- Setting a slot to `None` leaves it reading as `None`. -/
theorem getData_setData_vnone (st : St) (i : Nat) :
    getData (setData st i Val.vnone) i = Val.vnone := by
  rcases Nat.lt_or_ge i st.data.length with h | h
  · exact getData_setData_self st i Val.vnone h
  · simp only [getData, setData]
    exact getD_ge _ i Val.vnone (by rw [List.length_set]; exact h)

/-- Evolution of the run state under `get_data` when every node named `nm`
computes `None`: the invocation log only grows, and a value record for `nm`
that is absent or `None` stays absent or `None`. -/
theorem get_dataF_evolution (ns : List ProcessorNode) (nm : String)
    (hwf : WFdeps ns)
    (hnone : ∀ k, k < ns.length → (getNode ns k).name = nm →
      ∀ inputs, (getNode ns k).processor.impl inputs = Val.vnone) :
    ∀ fuel : Nat,
      (∀ i st, i < ns.length →
        (∃ l, (get_dataF fuel ns i st).2.calls = st.calls ++ l) ∧
        ((lookupS st.vals nm = none ∨ lookupS st.vals nm = some Val.vnone) →
         (lookupS (get_dataF fuel ns i st).2.vals nm = none ∨
          lookupS (get_dataF fuel ns i st).2.vals nm = some Val.vnone))) ∧
      (∀ (deps : List Nat) st, (∀ j, j ∈ deps → j < ns.length) →
        (∃ l, (getInputsAux (get_dataF fuel ns) deps st).2.calls =
          st.calls ++ l) ∧
        ((lookupS st.vals nm = none ∨ lookupS st.vals nm = some Val.vnone) →
         (lookupS (getInputsAux (get_dataF fuel ns) deps st).2.vals nm =
            none ∨
          lookupS (getInputsAux (get_dataF fuel ns) deps st).2.vals nm =
            some Val.vnone))) := by
  intro fuel
  induction fuel with
  | zero =>
    constructor
    · intro i st _
      exact ⟨⟨[], by simp [get_dataF]⟩, fun h => h⟩
    · intro deps
      induction deps with
      | nil =>
        intro st _
        rw [getInputsAux_nil]
        exact ⟨⟨[], by simp⟩, fun h => h⟩
      | cons x t ihl =>
        intro st hmem
        rw [getInputsAux_cons]
        exact ihl st (fun y hy => hmem y (by simp [hy]))
  | succ fuel ih =>
    have hget : ∀ i st, i < ns.length →
        (∃ l, (get_dataF (fuel + 1) ns i st).2.calls = st.calls ++ l) ∧
        ((lookupS st.vals nm = none ∨ lookupS st.vals nm = some Val.vnone) →
         (lookupS (get_dataF (fuel + 1) ns i st).2.vals nm = none ∨
          lookupS (get_dataF (fuel + 1) ns i st).2.vals nm =
            some Val.vnone)) := by
      intro i st hi
      obtain ⟨fm, fv, fd, fc, fl, fln⟩ :=
        (node_validF_frame ns (fuel + 1)).1 i st
      -- the recompute branch, for either base state
      have hgen : ∀ stB : St, stB.calls = st.calls → stB.vals = st.vals →
          (∃ l, (setData (gen_and_cacheAux (get_dataF fuel ns) ns i stB).2 i
            (gen_and_cacheAux (get_dataF fuel ns) ns i stB).1).calls =
            st.calls ++ l) ∧
          ((lookupS st.vals nm = none ∨
            lookupS st.vals nm = some Val.vnone) →
           (lookupS (setData (gen_and_cacheAux (get_dataF fuel ns) ns i
              stB).2 i
              (gen_and_cacheAux (get_dataF fuel ns) ns i stB).1).vals nm =
              none ∨
            lookupS (setData (gen_and_cacheAux (get_dataF fuel ns) ns i
              stB).2 i
              (gen_and_cacheAux (get_dataF fuel ns) ns i stB).1).vals nm =
              some Val.vnone)) := by
        intro stB hcB hvB
        obtain ⟨g1, g2, g3⟩ :=
          gen_and_cacheAux_fields (get_dataF fuel ns) ns i stB
        have gvals :=
          gen_and_cacheAux_vals (get_dataF fuel ns) ns i stB
        obtain ⟨⟨l0, hl0⟩, hpres⟩ := ih.2 (getNode ns i).dependencies stB
          (fun j hj => Nat.lt_trans (hwf i hi j hj) hi)
        constructor
        · refine ⟨l0 ++ [i], ?_⟩
          show (gen_and_cacheAux (get_dataF fuel ns) ns i stB).2.calls =
            st.calls ++ (l0 ++ [i])
          rw [g2, hl0, hcB, List.append_assoc]
        · intro hdisk
          have hdiskB : lookupS stB.vals nm = none ∨
              lookupS stB.vals nm = some Val.vnone := by
            rw [hvB]; exact hdisk
          have hloopv := hpres hdiskB
          show lookupS (gen_and_cacheAux (get_dataF fuel ns) ns i
              stB).2.vals nm = none ∨
            lookupS (gen_and_cacheAux (get_dataF fuel ns) ns i stB).2.vals
              nm = some Val.vnone
          rw [gvals]
          cases hnc : (getNode ns i).no_caching with
          | true => simpa [hnc] using hloopv
          | false =>
            simp only [hnc, Bool.false_eq_true, if_false]
            by_cases hname : (getNode ns i).name = nm
            · right
              rw [← hname, lookupS_setS_self]
              rw [show run_processor (getNode ns i).processor
                  (getNode ns i).args
                  (getInputsAux (get_dataF fuel ns)
                    (getNode ns i).dependencies stB).1 = Val.vnone from
                hnone i hi hname _]
            · rw [lookupS_setS_ne _ _ _ _ hname]
              exact hloopv
      by_cases hslot : getData (node_validF (fuel + 1) ns i st).2 i =
          Val.vnone
      · cases hr : (node_validF (fuel + 1) ns i st).1 with
        | false =>
          rw [get_dataF_genInvalid fuel ns i st hr hslot]
          exact hgen (node_validF (fuel + 1) ns i st).2 fc fv
        | true =>
          cases hnc : (getNode ns i).no_caching with
          | true =>
            rw [get_dataF_genNoCaching fuel ns i st hnc hslot]
            exact hgen (node_validF (fuel + 1) ns i st).2 fc fv
          | false =>
            cases hlk : lookupS (node_validF (fuel + 1) ns i st).2.vals
                (getNode ns i).name with
            | none =>
              rw [get_dataF_loadMissGen fuel ns i st hr hnc hslot hlk]
              exact hgen _ fc fv
            | some v =>
              by_cases hv : v = Val.vnone
              · subst hv
                rw [get_dataF_loadNoneGen fuel ns i st hr hnc hslot hlk]
                exact hgen _ fc fv
              · rw [get_dataF_loadHit fuel ns i st v hr hnc hslot hlk hv]
                refine ⟨⟨[], by simp [fc]⟩, fun hdisk => ?_⟩
                show lookupS (node_validF (fuel + 1) ns i st).2.vals nm =
                    none ∨
                  lookupS (node_validF (fuel + 1) ns i st).2.vals nm =
                    some Val.vnone
                rw [fv]
                exact hdisk
      · rw [get_dataF_slotHit fuel ns i st hslot]
        refine ⟨⟨[], by simp [fc]⟩, fun hdisk => ?_⟩
        rw [fv]
        exact hdisk
    refine ⟨hget, ?_⟩
    intro deps
    induction deps with
    | nil =>
      intro st _
      rw [getInputsAux_nil]
      exact ⟨⟨[], by simp⟩, fun h => h⟩
    | cons x t ihl =>
      intro st hmem
      obtain ⟨⟨lx, hlx⟩, hpx⟩ := hget x st (hmem x (by simp))
      obtain ⟨⟨lt', hlt⟩, hpt⟩ := ihl (get_dataF (fuel + 1) ns x st).2
        (fun y hy => hmem y (by simp [hy]))
      rw [getInputsAux_cons]
      constructor
      · exact ⟨lx ++ lt', by rw [hlt, hlx, List.append_assoc]⟩
      · intro hdisk
        exact hpt (hpx hdisk)

/-- C9: a node whose processor (and every like-named node's processor)
returns `None` is never served from the in-memory slot or from the persisted
value artifact: whenever its slot is empty-or-`None` and its value record is
absent-or-`None`, a demand invokes the processor again, and afterwards the
slot and the value record are again `None`/absent — so the function runs on
every demand, within a run and across runs, even when the node is valid and
cacheable. -/
theorem c9_none_is_recomputed (ns : List ProcessorNode) (hwf : WFdeps ns)
    (fuel i : Nat) (st : St) (hi : i < ns.length)
    (hnone : ∀ k, k < ns.length →
      (getNode ns k).name = (getNode ns i).name →
      ∀ inputs, (getNode ns k).processor.impl inputs = Val.vnone)
    (hslot : getData st i = Val.vnone)
    (hdisk : lookupS st.vals (getNode ns i).name = none ∨
      lookupS st.vals (getNode ns i).name = some Val.vnone) :
    (∃ l, (get_dataF (fuel + 1) ns i st).2.calls = st.calls ++ l ∧ i ∈ l) ∧
    getData (get_dataF (fuel + 1) ns i st).2 i = Val.vnone ∧
    (lookupS (get_dataF (fuel + 1) ns i st).2.vals (getNode ns i).name =
      none ∨
     lookupS (get_dataF (fuel + 1) ns i st).2.vals (getNode ns i).name =
      some Val.vnone) := by
  obtain ⟨fm, fv, fd, fc, fl, fln⟩ := (node_validF_frame ns (fuel + 1)).1 i st
  have hslot1 : getData (node_validF (fuel + 1) ns i st).2 i = Val.vnone := by
    rw [getData_eq_of_data st _ fd]
    exact hslot
  -- the recompute branch, for either base state
  have hgen : ∀ stB : St, stB.calls = st.calls → stB.vals = st.vals →
      (∃ l, (setData (gen_and_cacheAux (get_dataF fuel ns) ns i stB).2 i
        (gen_and_cacheAux (get_dataF fuel ns) ns i stB).1).calls =
        st.calls ++ l ∧ i ∈ l) ∧
      getData (setData (gen_and_cacheAux (get_dataF fuel ns) ns i stB).2 i
        (gen_and_cacheAux (get_dataF fuel ns) ns i stB).1) i = Val.vnone ∧
      (lookupS (setData (gen_and_cacheAux (get_dataF fuel ns) ns i stB).2 i
        (gen_and_cacheAux (get_dataF fuel ns) ns i stB).1).vals
        (getNode ns i).name = none ∨
       lookupS (setData (gen_and_cacheAux (get_dataF fuel ns) ns i stB).2 i
        (gen_and_cacheAux (get_dataF fuel ns) ns i stB).1).vals
        (getNode ns i).name = some Val.vnone) := by
    intro stB hcB hvB
    obtain ⟨g1, g2, g3⟩ :=
      gen_and_cacheAux_fields (get_dataF fuel ns) ns i stB
    have gvals := gen_and_cacheAux_vals (get_dataF fuel ns) ns i stB
    obtain ⟨⟨l0, hl0⟩, hpres⟩ :=
      (get_dataF_evolution ns (getNode ns i).name hwf hnone fuel).2
        (getNode ns i).dependencies stB
        (fun j hj => Nat.lt_trans (hwf i hi j hj) hi)
    have hw1 : (gen_and_cacheAux (get_dataF fuel ns) ns i stB).1 =
        Val.vnone := by
      rw [g1]
      exact hnone i hi rfl _
    refine ⟨⟨l0 ++ [i], ?_, by simp⟩, ?_, ?_⟩
    · show (gen_and_cacheAux (get_dataF fuel ns) ns i stB).2.calls =
        st.calls ++ (l0 ++ [i])
      rw [g2, hl0, hcB, List.append_assoc]
    · rw [hw1]
      exact getData_setData_vnone _ i
    · have hdiskB : lookupS stB.vals (getNode ns i).name = none ∨
          lookupS stB.vals (getNode ns i).name = some Val.vnone := by
        rw [hvB]; exact hdisk
      have hloopv := hpres hdiskB
      show lookupS (gen_and_cacheAux (get_dataF fuel ns) ns i stB).2.vals
          (getNode ns i).name = none ∨
        lookupS (gen_and_cacheAux (get_dataF fuel ns) ns i stB).2.vals
          (getNode ns i).name = some Val.vnone
      rw [gvals]
      cases hnc : (getNode ns i).no_caching with
      | true => simpa [hnc] using hloopv
      | false =>
        simp only [hnc, Bool.false_eq_true, if_false]
        right
        rw [lookupS_setS_self,
          show run_processor (getNode ns i).processor (getNode ns i).args
            (getInputsAux (get_dataF fuel ns)
              (getNode ns i).dependencies stB).1 = Val.vnone from
            hnone i hi rfl _]
  cases hr : (node_validF (fuel + 1) ns i st).1 with
  | false =>
    rw [get_dataF_genInvalid fuel ns i st hr hslot1]
    exact hgen (node_validF (fuel + 1) ns i st).2 fc fv
  | true =>
    cases hnc : (getNode ns i).no_caching with
    | true =>
      rw [get_dataF_genNoCaching fuel ns i st hnc hslot1]
      exact hgen (node_validF (fuel + 1) ns i st).2 fc fv
    | false =>
      rcases hdisk with hd | hd
      · rw [get_dataF_loadMissGen fuel ns i st hr hnc hslot1
          (by rw [fv]; exact hd)]
        exact hgen _ fc fv
      · rw [get_dataF_loadNoneGen fuel ns i st hr hnc hslot1
          (by rw [fv]; exact hd)]
        exact hgen _ fc fv

/-- C9 (witness): the theorem applied to the one-node `None`-returning arena
over an empty store. -/
theorem c9_witness :
    (∃ l, (get_dataF 1 nsNone 0 (initSt 1)).2.calls =
      (initSt 1).calls ++ l ∧ 0 ∈ l) ∧
    getData (get_dataF 1 nsNone 0 (initSt 1)).2 0 = Val.vnone ∧
    (lookupS (get_dataF 1 nsNone 0 (initSt 1)).2.vals
      (getNode nsNone 0).name = none ∨
     lookupS (get_dataF 1 nsNone 0 (initSt 1)).2.vals
      (getNode nsNone 0).name = some Val.vnone) :=
  c9_none_is_recomputed nsNone (by decide) 0 0 (initSt 1) (by decide)
    (by
      intro k hk hname inputs
      have hk1 : k < 1 := hk
      interval_cases k
      rfl)
    (by decide) (Or.inl rfl)

end Reminis
